import Mathlib

/-!
# CHIP-8 emulator: a shallow embedding of `chip_8.h` / `chip_8.cpp`

The class `Chip8` becomes a structure of the same fields; every member
function becomes a function on that structure with the same name.

Conventions of the embedding.

* Machine integers are natural numbers.  Wherever the C++ stores into a
  `uint8_t` or `uint16_t` after an `int` computation, the model reduces
  modulo `256` or `65536` at that store.  A field of a state is *in range*
  when it is below `2 ^ width`; theorems assume this only for the fields
  they read.
* Arrays (`V`, `memory`, `stack`, `keys`, `display`) are total maps from an
  index to a value.  The source never checks an index, and neither does the
  model.  The model is the C++ on every cycle whose array accesses stay inside
  the declared bounds (`inBounds`).  An access outside them is undefined in
  C++: what a store past the end of `stack` overwrites, or what a read past
  the end of `memory` returns, depends on the layout of the object and is not
  part of the model.  Theorems therefore state the array bounds as hypotheses.
  Where a theorem is about a cycle that leaves the bounds, the value of the map
  at the index outside them stands for whatever the C++ access finds there,
  and nothing is concluded about the state after a store outside the bounds.
* `rand()` is an oracle: the state carries the sequence of values that the
  successive calls return and the number of calls made so far.
* The dispatch tables hold pointers to member functions.  A slot that the
  constructor never assigns has no handler to run; there the model of a cycle
  has no result (`none`).
-/

/-- Store `v` at index `i` of an array (a plain C++ element assignment). -/
def write (a : Nat → Nat) (i v : Nat) : Nat → Nat :=
  fun j => if j = i then v else a j

/-- Subtraction of two `uint8_t` values stored back into a `uint8_t`. -/
def sub8 (a b : Nat) : Nat :=
  (a + 256 - b % 256) % 256

/-- The data members of `class Chip8` (chip_8.h, lines 6-14 and 76-77),
together with the oracle for `rand()`. -/
structure Chip8 where
  V : Nat → Nat
  memory : Nat → Nat
  I : Nat
  pc : Nat
  stack : Nat → Nat
  sp : Nat
  delay_timer : Nat
  sound_timer : Nat
  opcode : Nat
  keys : Nat → Nat
  display : Nat → Nat
  rand_seq : Nat → Nat
  rand_calls : Nat

/-- The built-in font, `fontset[80]` (chip_8.cpp, lines 11-29). -/
def fontset : List Nat :=
  [0xF0, 0x90, 0x90, 0x90, 0xF0,
   0x20, 0x60, 0x20, 0x20, 0x70,
   0xF0, 0x10, 0xF0, 0x80, 0xF0,
   0xF0, 0x10, 0xF0, 0x10, 0xF0,
   0x90, 0x90, 0xF0, 0x10, 0x10,
   0xF0, 0x80, 0xF0, 0x10, 0xF0,
   0xF0, 0x80, 0xF0, 0x90, 0xF0,
   0xF0, 0x10, 0x20, 0x40, 0x40,
   0xF0, 0x90, 0xF0, 0x90, 0xF0,
   0xF0, 0x90, 0xF0, 0x10, 0xF0,
   0xF0, 0x90, 0xF0, 0x90, 0x90,
   0xE0, 0x90, 0xE0, 0x90, 0xE0,
   0xF0, 0x80, 0x80, 0x80, 0xF0,
   0xE0, 0x90, 0x90, 0x90, 0xE0,
   0xF0, 0x80, 0xF0, 0x80, 0xF0,
   0xF0, 0x80, 0xF0, 0x80, 0x80]

/-- The constructor `Chip8::Chip8()` (chip_8.cpp, lines 31-42): every member
is zero, then `pc = 0x200` and the font is copied to `0x50 ..`.  The argument
is the sequence that the seeded `rand()` will return. -/
def Chip8_Chip8 (rnd : Nat → Nat) : Chip8 :=
  let zero : Nat → Nat := fun _ => 0
  { V := zero
    memory := (List.range 80).foldl (fun m i => write m (0x50 + i) (fontset.getD i 0)) zero
    I := 0
    pc := 0x200
    stack := zero
    sp := 0
    delay_timer := 0
    sound_timer := 0
    opcode := 0
    keys := zero
    display := zero
    rand_seq := rnd
    rand_calls := 0 }

/-- The ROM loader `Chip8::loadROM` (chip_8.cpp, lines 89-114).  The file is
given as its bytes, or `none` when it cannot be opened. -/
def loadROM (s : Chip8) (file : Option (List Nat)) : Chip8 :=
  match file with
  | none => s
  | some buffer =>
    let copy := fun (m : Nat → Nat) (i : Nat) => write m (0x200 + i) (buffer.getD i 0 % 256)
    { s with memory := (List.range buffer.length).foldl copy s.memory }

/-! ## Decoding helpers (chip_8.cpp, lines 136-154) -/

def getX (s : Chip8) : Nat := ((s.opcode &&& 0x0F00) >>> 8) % 256

def getY (s : Chip8) : Nat := ((s.opcode &&& 0x00F0) >>> 4) % 256

def getN (s : Chip8) : Nat := (s.opcode &&& 0x000F) % 256

def getNN (s : Chip8) : Nat := (s.opcode &&& 0x00FF) % 256

def getNNN (s : Chip8) : Nat := (s.opcode &&& 0x0FFF) % 65536

/-! ## The handlers (chip_8.cpp, lines 158-405) -/

def op_00E0 (s : Chip8) : Chip8 :=
  { s with display := fun _ => 0 }

/-- `RET` (lines 164-167): `sp--; pc = stack[sp];`.  The read is inside
`stack[16]` when `1 <= sp <= 16`. -/
def op_00EE (s : Chip8) : Chip8 :=
  let s := { s with sp := (s.sp + 255) % 256 }
  { s with pc := s.stack s.sp }

def op_1NNN (s : Chip8) : Chip8 :=
  { s with pc := getNNN s }

/-- `CALL` (lines 175-179): `stack[sp] = pc; sp++; pc = getNNN();`.  The store
is inside `stack[16]` when `sp < 16`, and only then is this the C++: with
`sp = 16` the C++ store lands past the array, on whatever member follows it. -/
def op_2NNN (s : Chip8) : Chip8 :=
  let s := { s with stack := write s.stack s.sp s.pc }
  let s := { s with sp := (s.sp + 1) % 256 }
  { s with pc := getNNN s }

def op_3XNN (s : Chip8) : Chip8 :=
  if s.V (getX s) = getNN s then { s with pc := (s.pc + 2) % 65536 } else s

def op_4XNN (s : Chip8) : Chip8 :=
  if s.V (getX s) ≠ getNN s then { s with pc := (s.pc + 2) % 65536 } else s

def op_5XY0 (s : Chip8) : Chip8 :=
  if s.V (getX s) = s.V (getY s) then { s with pc := (s.pc + 2) % 65536 } else s

def op_6XNN (s : Chip8) : Chip8 :=
  { s with V := write s.V (getX s) (getNN s) }

def op_7XNN (s : Chip8) : Chip8 :=
  { s with V := write s.V (getX s) ((s.V (getX s) + getNN s) % 256) }

def op_8XY0 (s : Chip8) : Chip8 :=
  { s with V := write s.V (getX s) (s.V (getY s)) }

def op_8XY1 (s : Chip8) : Chip8 :=
  { s with V := write s.V (getX s) ((s.V (getX s) ||| s.V (getY s)) % 256) }

def op_8XY2 (s : Chip8) : Chip8 :=
  { s with V := write s.V (getX s) ((s.V (getX s) &&& s.V (getY s)) % 256) }

def op_8XY3 (s : Chip8) : Chip8 :=
  { s with V := write s.V (getX s) ((s.V (getX s) ^^^ s.V (getY s)) % 256) }

def op_8XY4 (s : Chip8) : Chip8 :=
  let sum := (s.V (getX s) + s.V (getY s)) % 65536
  let s := if sum > 255 then { s with V := write s.V 0xF 1 }
           else { s with V := write s.V 0xF 0 }
  { s with V := write s.V (getX s) ((sum &&& 0xFF) % 256) }

def op_8XY5 (s : Chip8) : Chip8 :=
  let s := if s.V (getX s) > s.V (getY s) then { s with V := write s.V 0xF 1 }
           else { s with V := write s.V 0xF 0 }
  { s with V := write s.V (getX s) (sub8 (s.V (getX s)) (s.V (getY s))) }

def op_8XY6 (s : Chip8) : Chip8 :=
  let s := { s with V := write s.V 0xF ((s.V (getX s) &&& 0x1) % 256) }
  { s with V := write s.V (getX s) (s.V (getX s) >>> 1) }

def op_8XY7 (s : Chip8) : Chip8 :=
  let s := if s.V (getY s) > s.V (getX s) then { s with V := write s.V 0xF 1 }
           else { s with V := write s.V 0xF 0 }
  { s with V := write s.V (getX s) (sub8 (s.V (getY s)) (s.V (getX s))) }

def op_8XYE (s : Chip8) : Chip8 :=
  let s := { s with V := write s.V 0xF (((s.V (getX s) &&& 0x80) >>> 7) % 256) }
  { s with V := write s.V (getX s) ((s.V (getX s) <<< 1) % 256) }

def op_9XY0 (s : Chip8) : Chip8 :=
  if s.V (getX s) ≠ s.V (getY s) then { s with pc := (s.pc + 2) % 65536 } else s

def op_ANNN (s : Chip8) : Chip8 :=
  { s with I := getNNN s }

def op_BNNN (s : Chip8) : Chip8 :=
  { s with pc := (getNNN s + s.V 0) % 65536 }

def op_CXNN (s : Chip8) : Chip8 :=
  let r := s.rand_seq s.rand_calls
  let s := { s with rand_calls := s.rand_calls + 1 }
  { s with V := write s.V (getX s) (((r % 256) &&& getNN s) % 256) }

/-- One pass of the inner loop of `op_DXYN` (chip_8.cpp, lines 313-319).  In
C++ `!=` binds tighter than `&`, so the test is `byte & ((0x80 >> col) != 0)`. -/
def op_DXYN_col (xPos yPos row byte : Nat) (s : Chip8) (col : Nat) : Chip8 :=
  if byte &&& (if (0x80 >>> col) ≠ 0 then 1 else 0) ≠ 0 then
    let idx := col + xPos + (yPos + row) * 64
    let s := if s.display idx = 0xFFFFFFFF then { s with V := write s.V 0xF 1 } else s
    { s with display := write s.display idx (s.display idx ^^^ 0xFFFFFFFF) }
  else s

/-- One pass of the outer loop of `op_DXYN` (chip_8.cpp, lines 310-322). -/
def op_DXYN_row (xPos yPos : Nat) (s : Chip8) (row : Nat) : Chip8 :=
  let byte := s.memory (s.I + row)
  (List.range 8).foldl (op_DXYN_col xPos yPos row byte) s

def op_DXYN (s : Chip8) : Chip8 :=
  let xPos := s.V (getX s)
  let yPos := s.V (getY s)
  let num_bytes := getN s
  let s := { s with V := write s.V 0xF 0 }
  (List.range num_bytes).foldl (op_DXYN_row xPos yPos) s

def op_EX9E (s : Chip8) : Chip8 :=
  if s.keys (s.V (getX s)) ≠ 0 then { s with pc := (s.pc + 2) % 65536 } else s

def op_EXA1 (s : Chip8) : Chip8 :=
  if ¬ (s.keys (s.V (getX s)) ≠ 0) then { s with pc := (s.pc + 2) % 65536 } else s

def op_FX07 (s : Chip8) : Chip8 :=
  { s with V := write s.V (getX s) s.delay_timer }

/-- The scan of `op_FX0A` (chip_8.cpp, lines 348-354): starting at index `i`,
with `todo` indices left, the first index whose key flag is set. -/
def op_FX0A_scan (keys : Nat → Nat) : Nat → Nat → Option Nat
  | _, 0 => none
  | i, todo + 1 => if keys i ≠ 0 then some i else op_FX0A_scan keys (i + 1) todo

def op_FX0A (s : Chip8) : Chip8 :=
  match op_FX0A_scan s.keys 0 16 with
  | some i => { s with V := write s.V (getX s) (i % 256) }
  | none => { s with pc := (s.pc + 65534) % 65536 }

def op_FX15 (s : Chip8) : Chip8 :=
  { s with delay_timer := s.V (getX s) }

def op_FX18 (s : Chip8) : Chip8 :=
  { s with sound_timer := s.V (getX s) }

def op_FX1E (s : Chip8) : Chip8 :=
  { s with I := (s.I + s.V (getX s)) % 65536 }

def op_FX29 (s : Chip8) : Chip8 :=
  { s with I := (0x50 + 5 * s.V (getX s)) % 65536 }

def op_FX33 (s : Chip8) : Chip8 :=
  let num := s.V (getX s)
  let s := { s with memory := write s.memory (s.I + 2) (num % 10) }
  let num := (num / 10) % 256
  let s := { s with memory := write s.memory (s.I + 1) (num % 10) }
  let num := (num / 10) % 256
  { s with memory := write s.memory s.I (num % 10) }

def op_FX55 (s : Chip8) : Chip8 :=
  (List.range (getX s + 1)).foldl
    (fun s i => { s with memory := write s.memory (s.I + i) (s.V i) }) s

def op_FX65 (s : Chip8) : Chip8 :=
  (List.range (getX s + 1)).foldl
    (fun s i => { s with V := write s.V i (s.memory (s.I + i)) }) s

/-! ## The dispatch tables (chip_8.h, lines 60-71; chip_8.cpp, lines 43-85
and 409-427)

Each table is declared with the initialiser `{&Chip8::null}`, which sets
element 0 only; the constructor then assigns the slots listed below.  `none`
is a slot that was never assigned, or an index past the end of the table. -/

def null (s : Chip8) : Chip8 := s

def op_table0 (i : Nat) : Option (Chip8 → Chip8) :=
  match i with
  | 0x0 => some op_00E0
  | 0xE => some op_00EE
  | _ => none

def op_table8 (i : Nat) : Option (Chip8 → Chip8) :=
  match i with
  | 0x0 => some op_8XY0
  | 0x1 => some op_8XY1
  | 0x2 => some op_8XY2
  | 0x3 => some op_8XY3
  | 0x4 => some op_8XY4
  | 0x5 => some op_8XY5
  | 0x6 => some op_8XY6
  | 0x7 => some op_8XY7
  | 0xE => some op_8XYE
  | _ => none

def op_tableE (i : Nat) : Option (Chip8 → Chip8) :=
  match i with
  | 0x0 => some null
  | 0x1 => some op_EXA1
  | 0xE => some op_EX9E
  | _ => none

def op_tableF (i : Nat) : Option (Chip8 → Chip8) :=
  match i with
  | 0x00 => some null
  | 0x07 => some op_FX07
  | 0x0A => some op_FX0A
  | 0x15 => some op_FX15
  | 0x18 => some op_FX18
  | 0x1E => some op_FX1E
  | 0x29 => some op_FX29
  | 0x33 => some op_FX33
  | 0x55 => some op_FX55
  | 0x65 => some op_FX65
  | _ => none

def table0 (s : Chip8) : Option Chip8 :=
  (op_table0 (getN s)).map (fun h => h s)

def table8 (s : Chip8) : Option Chip8 :=
  (op_table8 (getN s)).map (fun h => h s)

def tableE (s : Chip8) : Option Chip8 :=
  (op_tableE (getN s)).map (fun h => h s)

def tableF (s : Chip8) : Option Chip8 :=
  (op_tableF (getNN s)).map (fun h => h s)

def op_table (i : Nat) : Option (Chip8 → Option Chip8) :=
  match i with
  | 0x0 => some table0
  | 0x1 => some (fun s => some (op_1NNN s))
  | 0x2 => some (fun s => some (op_2NNN s))
  | 0x3 => some (fun s => some (op_3XNN s))
  | 0x4 => some (fun s => some (op_4XNN s))
  | 0x5 => some (fun s => some (op_5XY0 s))
  | 0x6 => some (fun s => some (op_6XNN s))
  | 0x7 => some (fun s => some (op_7XNN s))
  | 0x8 => some table8
  | 0x9 => some (fun s => some (op_9XY0 s))
  | 0xA => some (fun s => some (op_ANNN s))
  | 0xB => some (fun s => some (op_BNNN s))
  | 0xC => some (fun s => some (op_CXNN s))
  | 0xD => some (fun s => some (op_DXYN s))
  | 0xE => some tableE
  | 0xF => some tableF
  | _ => none

/-! ## One cycle (chip_8.cpp, lines 116-133) -/

/-- The word read by line 118: `(memory[pc] << 8) | memory[pc + 1]`, stored
into the 16-bit `opcode`.  Both reads are inside `memory[4096]` when
`pc <= 4094`, and only then is this the C++: past the array the C++ reads
whatever member follows it, and the value of the map at such an index stands
for a byte that the source does not determine. -/
def fetch (s : Chip8) : Nat :=
  ((s.memory s.pc <<< 8) ||| s.memory (s.pc + 1)) % 65536

/-- The timer update of lines 127-132. -/
def updateTimers (s : Chip8) : Chip8 :=
  let s := if s.delay_timer > 0 then { s with delay_timer := s.delay_timer - 1 } else s
  if s.sound_timer > 0 then { s with sound_timer := s.sound_timer - 1 } else s

def emulateCycle (s : Chip8) : Option Chip8 :=
  let s := { s with opcode := fetch s }
  let s := { s with pc := (s.pc + 2) % 65536 }
  match op_table ((s.opcode &&& 0xF000) >>> 12) with
  | none => none
  | some h => (h s).map updateTimers

/-- The state on which a handler runs: `opcode` holds the fetched word `w` and
`pc` has been advanced (lines 118 and 121). -/
def afterFetch (s : Chip8) (w : Nat) : Chip8 :=
  { s with opcode := w, pc := (s.pc + 2) % 65536 }

/-- The host loop: `n` successive calls of `emulateCycle`, with the key state
left alone in between. -/
def emulateCycles : Nat → Chip8 → Option Chip8
  | 0, s => some s
  | n + 1, s => (emulateCycle s).bind (emulateCycles n)

/-! ## Where the array accesses of a cycle stay in bounds -/

/-- The fetch of line 118 reads `memory[pc]` and `memory[pc + 1]` inside
`uint8_t memory[4096]`. -/
def fetchInBounds (s : Chip8) : Bool :=
  decide (s.pc + 1 < 4096)

/-- The leaf handler that the two table levels select for the word `w`, if
any: `op_table` indexed by the top nibble, then the secondary table indexed by
`getN` or `getNN`.  (A view of the dispatch used to state and prove facts about
all instructions at once; `emulateCycle_decode` relates it to `emulateCycle`.) -/
def decode (w : Nat) : Option (Chip8 → Chip8) :=
  match w / 4096 % 16 with
  | 0x0 => op_table0 (w % 16)
  | 0x1 => some op_1NNN
  | 0x2 => some op_2NNN
  | 0x3 => some op_3XNN
  | 0x4 => some op_4XNN
  | 0x5 => some op_5XY0
  | 0x6 => some op_6XNN
  | 0x7 => some op_7XNN
  | 0x8 => op_table8 (w % 16)
  | 0x9 => some op_9XY0
  | 0xA => some op_ANNN
  | 0xB => some op_BNNN
  | 0xC => some op_CXNN
  | 0xD => some op_DXYN
  | 0xE => op_tableE (w % 16)
  | 0xF => op_tableF (w % 256)
  | _ => none

/-- The word `w` selects a slot that holds a handler. -/
def dispatches (w : Nat) : Bool :=
  (decode w).isSome

/-- Pixel `p` lies in one of the first `n` sprite rows drawn at `(xPos, yPos)`
whose byte has its low bit set: the pixels that `op_DXYN` toggles, by
`op_DXYN_display`. -/
def spriteHits (s : Chip8) (xPos yPos n p : Nat) : Prop :=
  ∃ r < n, s.memory (s.I + r) % 2 = 1 ∧
    xPos + (yPos + r) * 64 ≤ p ∧ p < xPos + (yPos + r) * 64 + 8

instance spriteHitsDecidable (s : Chip8) (xPos yPos n p : Nat) :
    Decidable (spriteHits s xPos yPos n p) :=
  inferInstanceAs (Decidable (∃ r < n, s.memory (s.I + r) % 2 = 1 ∧
    xPos + (yPos + r) * 64 ≤ p ∧ p < xPos + (yPos + r) * 64 + 8))

/-! ## Programs and machines used as examples -/

/-- The program `LD VF, 1; LD V0, 2; ADD VF, V0`. -/
def romAddVF : List Nat := [0x6F, 0x01, 0x60, 0x02, 0x8F, 0x04]

/-- The program `LD V0, 5; LD V1, 5; SUB V0, V1`. -/
def romSubEqual : List Nat := [0x60, 0x05, 0x61, 0x05, 0x80, 0x15]

/-- The program `RET`, placed at `0x200`. -/
def romRet : List Nat := [0x00, 0xEE]

/-- A fresh machine with `LD V3, K` (`F3 0A`) loaded at `0x200`, on which the
host has set the flags of keys 5 and 9. -/
def machineKeys59 : Chip8 :=
  let s := loadROM (Chip8_Chip8 (fun _ => 0)) (some [0xF3, 0x0A])
  { s with keys := write (write s.keys 5 1) 9 1 }

/-- The program `0x0001`: slot 1 of `op_table0`, which the constructor never
assigns. -/
def romUnmapped0 : List Nat := [0x00, 0x01]

/-- The program `0x8008`: slot 8 of `op_table8`, never assigned. -/
def romUnmapped8 : List Nat := [0x80, 0x08]

/-- The program `0xE002`: slot 2 of `op_tableE`, never assigned. -/
def romUnmappedE : List Nat := [0xE0, 0x02]

/-- The program `0xF0FF`: index `0xFF`, past the `0x66` entries of
`op_tableF`. -/
def romUnmappedF : List Nat := [0xF0, 0xFF]

/-- The program `LD I, 0x050; DRW V0, V0, 1`: draws the top row of the glyph
of digit 0 (the byte `0xF0`) at the origin. -/
def romDrawGlyphRow : List Nat := [0xA0, 0x50, 0xD0, 0x01]

/-- The program `LD I, 0x204; DRW V0, V0, 1` followed by the sprite byte
`0x01`. -/
def romDrawLowBit : List Nat := [0xA2, 0x04, 0xD0, 0x01, 0x01]

/-- The program `LD I, 0xFFF; LD V0, 0x60; LD [I], V0; JP 0xFFF`: it stores the
byte `0x60` in the last memory cell and jumps to it. -/
def romStoreJumpToEnd : List Nat := [0xAF, 0xFF, 0x60, 0x60, 0xF0, 0x55, 0x1F, 0xFF]

/-- The program `LD V0, 5; LD VF, 3; SUB V0, VF`. -/
def romSubVF : List Nat := [0x60, 0x05, 0x6F, 0x03, 0x80, 0xF5]

/-- The program `LD I, 0x200; DRW V0, V0, 5` of the end-to-end example: it
draws its own four bytes, and the zero byte after them, as a sprite. -/
def romDrawSelf : List Nat := [0xA2, 0x00, 0xD0, 0x05]

/-- A fresh machine with `DRW V0, V1, 1` twice at `0x200`, the sprite byte
`0x01` after them at `0x204`, and `I = 0x204`. -/
def machineDrawTwice : Chip8 :=
  let s := loadROM (Chip8_Chip8 (fun _ => 0)) (some [0xD0, 0x11, 0xD0, 0x11, 0x01])
  { s with I := 0x204 }

/-- A fresh machine with `LD B, V0` (`F0 33`) at `0x200`, `V0 = 254` and
`I = 0x300`. -/
def machineBcd : Chip8 :=
  let s := loadROM (Chip8_Chip8 (fun _ => 0)) (some [0xF0, 0x33])
  { s with V := write s.V 0 254, I := 0x300 }

/-- A fresh machine with `LD [I], V2; LD V2, [I]` (`F2 55 F2 65`) at `0x200`,
`V0, V1, V2 = 7, 8, 9` and `I = 0x300`. -/
def machineStoreLoad : Chip8 :=
  let s := loadROM (Chip8_Chip8 (fun _ => 0)) (some [0xF2, 0x55, 0xF2, 0x65])
  { s with V := write (write (write s.V 0 7) 1 8) 2 9, I := 0x300 }

/-- A fresh machine with `LD F, V0` (`F0 29`) at `0x200` and `V0 = 0xB`. -/
def machineGlyphB : Chip8 :=
  let s := loadROM (Chip8_Chip8 (fun _ => 0)) (some [0xF0, 0x29])
  { s with V := write s.V 0 0xB }

/-- A fresh machine with the instruction `F0 nn` at `0x200`, `V0 = 5` and the
delay timer at 9. -/
def machineTimerOp (nn : Nat) : Chip8 :=
  let s := loadROM (Chip8_Chip8 (fun _ => 0)) (some [0xF0, nn])
  { s with V := write s.V 0 5, delay_timer := 9 }

/-! ## Basic facts about the embedding -/

@[simp] theorem write_same (a : Nat → Nat) (i v : Nat) : write a i v i = v := by
  simp [write]

@[simp] theorem write_other (a : Nat → Nat) (i v j : Nat) (h : j ≠ i) :
    write a i v j = a j := by
  simp [write, h]

theorem and_mask_shift (w k m : Nat) :
    (w &&& ((2 ^ m - 1) <<< k)) >>> k = w / 2 ^ k % 2 ^ m := by
  apply Nat.eq_of_testBit_eq
  intro i
  simp only [Nat.testBit_shiftRight, Nat.testBit_and, Nat.testBit_shiftLeft,
    Nat.testBit_two_pow_sub_one, Nat.testBit_mod_two_pow, ← Nat.shiftRight_eq_div_pow]
  by_cases h : i < m <;> simp [h, Nat.add_comm]

theorem top_nibble (w : Nat) : (w &&& 0xF000) >>> 12 = w / 4096 % 16 :=
  and_mask_shift w 12 4

theorem getX_eq (s : Chip8) : getX s = s.opcode / 256 % 16 := by
  have h := and_mask_shift s.opcode 8 4
  simp only [getX]
  have e : (0x0F00 : Nat) = (2 ^ 4 - 1) <<< 8 := by decide
  rw [e, h]
  omega

theorem getY_eq (s : Chip8) : getY s = s.opcode / 16 % 16 := by
  have h := and_mask_shift s.opcode 4 4
  simp only [getY]
  have e : (0x00F0 : Nat) = (2 ^ 4 - 1) <<< 4 := by decide
  rw [e, h]
  omega

theorem getN_eq (s : Chip8) : getN s = s.opcode % 16 := by
  have h := Nat.and_pow_two_sub_one_eq_mod s.opcode 4
  simp only [getN]
  have e : (0x000F : Nat) = 2 ^ 4 - 1 := by decide
  rw [e, h]
  omega

theorem getNN_eq (s : Chip8) : getNN s = s.opcode % 256 := by
  have h := Nat.and_pow_two_sub_one_eq_mod s.opcode 8
  simp only [getNN]
  have e : (0x00FF : Nat) = 2 ^ 8 - 1 := by decide
  rw [e, h]
  omega

theorem getNNN_eq (s : Chip8) : getNNN s = s.opcode % 4096 := by
  have h := Nat.and_pow_two_sub_one_eq_mod s.opcode 12
  simp only [getNNN]
  have e : (0x0FFF : Nat) = 2 ^ 12 - 1 := by decide
  rw [e, h]
  omega

/-- Two bytes in memory are fetched as one big-endian word. -/
theorem fetch_bytes (s : Chip8) (hi lo : Nat) (h0 : s.memory s.pc = hi)
    (h1 : s.memory (s.pc + 1) = lo) (hhi : hi < 256) (hlo : lo < 256) :
    fetch s = hi * 256 + lo := by
  simp only [fetch, h0, h1]
  rw [Nat.shiftLeft_eq, Nat.mul_comm, ← Nat.mul_add_lt_is_or (show lo < 2 ^ 8 from hlo)]
  omega

/-- A cycle, once the fetched word is known: the word selects a slot of
`op_table`, whose handler runs on the state with `opcode` and `pc` updated. -/
theorem emulateCycle_fetch (s : Chip8) (w : Nat) (hf : fetch s = w) :
    emulateCycle s =
      match op_table (w / 4096 % 16) with
      | none => none
      | some h => (h (afterFetch s w)).map updateTimers := by
  simp only [emulateCycle, hf, top_nibble, afterFetch]

@[simp] theorem afterFetch_V (s : Chip8) (w : Nat) : (afterFetch s w).V = s.V := rfl

@[simp] theorem afterFetch_memory (s : Chip8) (w : Nat) : (afterFetch s w).memory = s.memory := rfl

@[simp] theorem afterFetch_I (s : Chip8) (w : Nat) : (afterFetch s w).I = s.I := rfl

@[simp] theorem afterFetch_pc (s : Chip8) (w : Nat) :
    (afterFetch s w).pc = (s.pc + 2) % 65536 := rfl

@[simp] theorem afterFetch_stack (s : Chip8) (w : Nat) : (afterFetch s w).stack = s.stack := rfl

@[simp] theorem afterFetch_sp (s : Chip8) (w : Nat) : (afterFetch s w).sp = s.sp := rfl

@[simp] theorem afterFetch_keys (s : Chip8) (w : Nat) : (afterFetch s w).keys = s.keys := rfl

@[simp] theorem afterFetch_display (s : Chip8) (w : Nat) :
    (afterFetch s w).display = s.display := rfl

@[simp] theorem afterFetch_delay (s : Chip8) (w : Nat) :
    (afterFetch s w).delay_timer = s.delay_timer := rfl

@[simp] theorem afterFetch_opcode (s : Chip8) (w : Nat) : (afterFetch s w).opcode = w := rfl

@[simp] theorem getX_afterFetch (s : Chip8) (w : Nat) : getX (afterFetch s w) = w / 256 % 16 :=
  getX_eq _

@[simp] theorem getY_afterFetch (s : Chip8) (w : Nat) : getY (afterFetch s w) = w / 16 % 16 :=
  getY_eq _

@[simp] theorem getN_afterFetch (s : Chip8) (w : Nat) : getN (afterFetch s w) = w % 16 :=
  getN_eq _

@[simp] theorem getNN_afterFetch (s : Chip8) (w : Nat) : getNN (afterFetch s w) = w % 256 :=
  getNN_eq _

@[simp] theorem getNNN_afterFetch (s : Chip8) (w : Nat) : getNNN (afterFetch s w) = w % 4096 :=
  getNNN_eq _

theorem updateTimers_frame (s : Chip8) :
    (updateTimers s).V = s.V ∧ (updateTimers s).memory = s.memory ∧
    (updateTimers s).I = s.I ∧ (updateTimers s).pc = s.pc ∧
    (updateTimers s).stack = s.stack ∧ (updateTimers s).sp = s.sp ∧
    (updateTimers s).keys = s.keys ∧ (updateTimers s).display = s.display ∧
    (updateTimers s).opcode = s.opcode := by
  unfold updateTimers
  by_cases h1 : s.delay_timer > 0 <;> by_cases h2 : s.sound_timer > 0 <;> simp [h1, h2]

theorem updateTimers_timers (s : Chip8) :
    (updateTimers s).delay_timer = s.delay_timer - 1 ∧
    (updateTimers s).sound_timer = s.sound_timer - 1 := by
  unfold updateTimers
  by_cases h1 : s.delay_timer > 0 <;> by_cases h2 : s.sound_timer > 0 <;> simp [h1, h2] <;> omega

/-! ## C1: `LD Vx, byte` -/

/-- C1. If memory holds the bytes `0x6X`, `NN` at `pc` and `pc + 1`, with
`pc <= 4094`, one cycle sets `Vx = NN` and `pc = pc + 2` and leaves every other
V register, `I`, `sp`, the stack, memory and the display unchanged. -/
theorem C1_ld_vx_byte (s : Chip8) (x nn : Nat) (hx : x < 16) (hnn : nn < 256)
    (hpc : s.pc ≤ 4094) (h0 : s.memory s.pc = 0x60 + x) (h1 : s.memory (s.pc + 1) = nn) :
    ∃ s', emulateCycle s = some s' ∧ s'.V x = nn ∧ s'.pc = s.pc + 2 ∧
      (∀ i, i ≠ x → s'.V i = s.V i) ∧ s'.I = s.I ∧ s'.sp = s.sp ∧
      s'.stack = s.stack ∧ s'.memory = s.memory ∧ s'.display = s.display := by
  have hf := fetch_bytes s _ _ h0 h1 (by omega) hnn
  have hop : ((0x60 + x) * 256 + nn) / 4096 % 16 = 6 := by omega
  rw [emulateCycle_fetch s _ hf, hop]
  refine ⟨_, rfl, ?_⟩
  obtain ⟨hV, hM, hI, hP, hS, hSp, -, hD, -⟩ := updateTimers_frame
    (op_6XNN (afterFetch s ((0x60 + x) * 256 + nn)))
  rw [hV, hM, hI, hP, hS, hSp, hD]
  have gx : ((0x60 + x) * 256 + nn) / 256 % 16 = x := by omega
  have gnn : ((0x60 + x) * 256 + nn) % 256 = nn := by omega
  simp only [op_6XNN, getX_afterFetch, getNN_afterFetch, gx, gnn]
  refine ⟨by simp, ?_, fun i hi => by simp [hi], ?_⟩
  · show (s.pc + 2) % 65536 = s.pc + 2
    omega
  · simp

/-- C1, at the machine of the end-to-end example: a freshly constructed
machine with bytes `60 0A` loaded at `0x200` ends with `V0 = 10`, `pc = 0x202`. -/
theorem C1_ld_vx_byte_witness :
    ∃ s', emulateCycle (loadROM (Chip8_Chip8 (fun _ => 0)) (some [0x60, 0x0A])) = some s' ∧
      s'.V 0 = 10 ∧ s'.pc = 0x202 := by
  obtain ⟨s', h, hv, hp, -⟩ :=
    C1_ld_vx_byte (loadROM (Chip8_Chip8 (fun _ => 0)) (some [0x60, 0x0A])) 0 10
      (by decide) (by decide) (by decide) (by decide) (by decide)
  exact ⟨s', h, hv, hp⟩

/-! ## C2, C3: the flag of `ADD Vx, Vy` and of `SUB Vx, Vy` -/

/-- For `x` other than `0xF`, `op_8XY4` leaves the carry of the sum in `VF`. -/
theorem op_8XY4_flag (s : Chip8) (hx : getX s ≠ 0xF) (hvx : s.V (getX s) < 256)
    (hvy : s.V (getY s) < 256) :
    (op_8XY4 s).V 0xF = if s.V (getX s) + s.V (getY s) > 255 then 1 else 0 := by
  have hm : (s.V (getX s) + s.V (getY s)) % 65536 = s.V (getX s) + s.V (getY s) := by omega
  simp only [op_8XY4, hm]
  by_cases h : s.V (getX s) + s.V (getY s) > 255
  · simp only [h, if_true]
    rw [write_other _ _ _ _ (Ne.symm (by simpa [getX] using hx))]
    simp
  · simp only [h, if_false]
    rw [write_other _ _ _ _ (Ne.symm (by simpa [getX] using hx))]
    simp

/-- C2. With `x = 0xF` the sum overwrites the carry: after `LD VF, 1; LD V0, 2`
the registers hold `VF = 1`, `V0 = 2` (sum 3, no carry), and `ADD VF, V0` then
leaves `VF = 3`, not `0`. -/
theorem C2_add_vf_holds_sum :
    (emulateCycles 2 (loadROM (Chip8_Chip8 (fun _ => 0)) (some romAddVF))).map
        (fun s => (s.V 0xF, s.V 0, fetch s)) = some (1, 2, 0x8F04) ∧
    (emulateCycles 3 (loadROM (Chip8_Chip8 (fun _ => 0)) (some romAddVF))).map
        (fun s => s.V 0xF) = some 3 := by
  decide

/-- C3. With equal operands the flag is 0: after `LD V0, 5; LD V1, 5` the
instruction `SUB V0, V1` leaves `VF = 0` (and `V0 = 0`), although `V0 >= V1`
held and no borrow occurred. -/
theorem C3_sub_equal_flag_zero :
    (emulateCycles 2 (loadROM (Chip8_Chip8 (fun _ => 0)) (some romSubEqual))).map
        (fun s => (s.V 0, s.V 1, fetch s)) = some (5, 5, 0x8015) ∧
    (emulateCycles 3 (loadROM (Chip8_Chip8 (fun _ => 0)) (some romSubEqual))).map
        (fun s => (s.V 0xF, s.V 0)) = some (0, 0) := by
  decide

/-! ## C4: `CALL` then `RET` -/

/-- A cycle that fetches `0x2NNN` runs `op_2NNN`. -/
theorem emulateCycle_call (s : Chip8) (w : Nat) (hf : fetch s = w) (hop : w / 4096 % 16 = 2) :
    emulateCycle s = some (updateTimers (op_2NNN (afterFetch s w))) := by
  rw [emulateCycle_fetch s w hf, hop]
  rfl

/-- A cycle that fetches a word `0x0..E` runs `op_00EE`. -/
theorem emulateCycle_ret (s : Chip8) (w : Nat) (hf : fetch s = w) (hop : w / 4096 % 16 = 0)
    (hn : w % 16 = 0xE) :
    emulateCycle s = some (updateTimers (op_00EE (afterFetch s w))) := by
  rw [emulateCycle_fetch s w hf, hop]
  show (table0 (afterFetch s w)).map updateTimers = _
  simp only [table0, getN_afterFetch, hn]
  rfl

/-- C4. With `sp < 16` and `pc <= 4094`, if memory holds `0x2NNN` at `pc` and
`0x00EE` at `NNN <= 4094`, two successive cycles end with `pc` at the
instruction after the `CALL` and with `sp` as it was. -/
theorem C4_call_ret_restores_pc (s : Chip8) (nnn : Nat) (hsp : s.sp < 16) (hpc : s.pc ≤ 4094)
    (hn : nnn ≤ 4094) (h0 : s.memory s.pc = 0x20 + nnn / 256)
    (h1 : s.memory (s.pc + 1) = nnn % 256) (h2 : s.memory nnn = 0x00)
    (h3 : s.memory (nnn + 1) = 0xEE) :
    ∃ s', emulateCycles 2 s = some s' ∧ s'.pc = s.pc + 2 ∧ s'.sp = s.sp := by
  have hf := fetch_bytes s _ _ h0 h1 (by omega) (by omega)
  have hc := emulateCycle_call s _ hf (by omega)
  have hw : ((0x20 + nnn / 256) * 256 + nnn % 256) % 4096 = nnn := by omega
  obtain ⟨hV, hM, hI, hP, hS, hSp, -, hD, -⟩ := updateTimers_frame
    (op_2NNN (afterFetch s ((0x20 + nnn / 256) * 256 + nnn % 256)))
  have hpc1 : (updateTimers (op_2NNN (afterFetch s ((0x20 + nnn / 256) * 256 + nnn % 256)))).pc
      = nnn := by
    rw [hP]; simp only [op_2NNN, getNNN_eq]; exact hw
  have hf2 : fetch (updateTimers (op_2NNN (afterFetch s ((0x20 + nnn / 256) * 256 + nnn % 256))))
      = 0x00 * 256 + 0xEE := by
    apply fetch_bytes
    · rw [hpc1, hM]; exact h2
    · rw [hpc1, hM]; exact h3
    · decide
    · decide
  have hr := emulateCycle_ret _ _ hf2 (by decide) (by decide)
  have h2c : emulateCycles 2 s = (emulateCycle s).bind emulateCycle := by
    simp [emulateCycles]
  rw [hc, Option.some_bind, hr] at h2c
  refine ⟨_, h2c, ?_, ?_⟩
  · rw [(updateTimers_frame _).2.2.2.1]
    simp only [op_00EE, afterFetch_stack, afterFetch_sp, hS, hSp]
    simp only [op_2NNN, afterFetch_sp, afterFetch_stack, afterFetch_pc]
    have e : (s.sp + 1) % 256 = s.sp + 1 := by omega
    have e2 : (s.sp + 1 + 255) % 256 = s.sp := by omega
    rw [e, e2, write_same]
    omega
  · rw [(updateTimers_frame _).2.2.2.2.2.1]
    simp only [op_00EE, afterFetch_sp, hSp]
    simp only [op_2NNN, afterFetch_sp]
    omega

/-- C4, at a concrete machine: `CALL 0x204` at `0x200` and `RET` at `0x204`. -/
theorem C4_call_ret_restores_pc_witness :
    ∃ s', emulateCycles 2
        (loadROM (Chip8_Chip8 (fun _ => 0)) (some [0x22, 0x04, 0x00, 0x00, 0x00, 0xEE])) = some s' ∧
      s'.pc = 0x202 ∧ s'.sp = 0 :=
  C4_call_ret_restores_pc
    (loadROM (Chip8_Chip8 (fun _ => 0)) (some [0x22, 0x04, 0x00, 0x00, 0x00, 0xEE])) 0x204
    (by decide) (by decide) (by decide) (by decide) (by decide) (by decide) (by decide)

/-! ## C5: nested `CALL`s -/

theorem emulateCycles_succ (n : Nat) (s : Chip8) :
    emulateCycles (n + 1) s = (emulateCycles n s).bind emulateCycle := by
  induction n generalizing s with
  | zero => simp [emulateCycles]
  | succ n ih =>
    show (emulateCycle s).bind (emulateCycles (n + 1)) =
      ((emulateCycle s).bind (emulateCycles n)).bind emulateCycle
    cases emulateCycle s with
    | none => rfl
    | some t => exact ih t

theorem emulateCycle_decode (s : Chip8) :
    emulateCycle s =
      (decode (fetch s)).map (fun h => updateTimers (h (afterFetch s (fetch s)))) := by
  rw [emulateCycle_fetch s _ rfl]
  have hlt : fetch s / 4096 % 16 < 16 := Nat.mod_lt _ (by decide)
  unfold decode
  generalize fetch s / 4096 % 16 = op at hlt
  interval_cases op <;>
    simp [op_table, table0, table8, tableE, tableF, Option.map_map, Function.comp_def]

/-- A cycle whose fetched word decodes to the handler `h`. -/
theorem emulateCycle_of_decode (s : Chip8) (w : Nat) (h : Chip8 → Chip8) (hf : fetch s = w)
    (hd : decode w = some h) : emulateCycle s = some (updateTimers (h (afterFetch s w))) := by
  rw [emulateCycle_decode, hf, hd]
  rfl

/-! ## C6: `RET` on an empty stack -/

/-- C6, as stated, fails: on the fresh machine with `00 EE` at `0x200` the
cycle is not refused; it returns a state whose `sp` has wrapped to 255. -/
theorem C6_ret_empty_stack_wraps :
    (emulateCycle (loadROM (Chip8_Chip8 (fun _ => 0)) (some romRet))).map (fun s => s.sp)
      = some 255 := by
  decide

/-- C6, amended. For every state with `sp = 0` and the bytes `00 EE` at `pc`
and `pc + 1`, the cycle returns a state: `op_00EE` has no underflow check,
the 8-bit `sp` wraps to 255 and `pc` is loaded from index 255 of the stack
array.  The V registers, `I`, the stack, memory and the display are unchanged. -/
theorem C6_ret_empty_stack (s : Chip8) (hsp : s.sp = 0)
    (h0 : s.memory s.pc = 0x00) (h1 : s.memory (s.pc + 1) = 0xEE) :
    ∃ s', emulateCycle s = some s' ∧ s'.sp = 255 ∧ s'.pc = s.stack 255 ∧
      s'.V = s.V ∧ s'.I = s.I ∧ s'.stack = s.stack ∧ s'.memory = s.memory ∧
      s'.display = s.display := by
  have hf := fetch_bytes s _ _ h0 h1 (by decide) (by decide)
  refine ⟨_, emulateCycle_of_decode s _ op_00EE hf rfl, ?_⟩
  obtain ⟨hV, hM, hI, hP, hS, hSp, -, hD, -⟩ :=
    updateTimers_frame (op_00EE (afterFetch s (0x00 * 256 + 0xEE)))
  rw [hV, hM, hI, hP, hS, hSp, hD]
  simp [op_00EE, hsp]

/-- C6, amended, at the fresh machine with `00 EE` at `0x200`. -/
theorem C6_ret_empty_stack_witness :
    ∃ s', emulateCycle (loadROM (Chip8_Chip8 (fun _ => 0)) (some romRet)) = some s' ∧
      s'.sp = 255 := by
  obtain ⟨s', h, hsp, -⟩ :=
    C6_ret_empty_stack (loadROM (Chip8_Chip8 (fun _ => 0)) (some romRet))
      (by decide) (by decide) (by decide)
  exact ⟨s', h, hsp⟩

/-! ## C7: the skip instructions -/

/-- A handler that changes nothing but `pc`, run in a cycle: the V registers
are those of the start state and `pc` is what the handler left. -/
theorem skip_cycle (s : Chip8) (w : Nat) (h : Chip8 → Chip8) (c : Prop) [Decidable c]
    (hpc : s.pc ≤ 4094) (hf : fetch s = w) (hd : decode w = some h)
    (hh : h (afterFetch s w) =
      if c then { afterFetch s w with pc := ((afterFetch s w).pc + 2) % 65536 }
      else afterFetch s w) :
    ∃ s', emulateCycle s = some s' ∧ s'.V = s.V ∧
      s'.pc = if c then s.pc + 4 else s.pc + 2 := by
  refine ⟨_, emulateCycle_of_decode s w h hf hd, ?_⟩
  obtain ⟨hV, -, -, hP, -⟩ := updateTimers_frame (h (afterFetch s w))
  rw [hV, hP, hh]
  by_cases hc : c
  · simp only [hc, if_true, afterFetch_pc, afterFetch_V, true_and]
    omega
  · simp only [hc, if_false, afterFetch_pc, afterFetch_V, true_and]
    omega

/-- C7. With `pc <= 4094`, a cycle that fetches `SE Vx, byte` (`3XNN`),
`SNE Vx, byte` (`4XNN`), `SE Vx, Vy` (`5XY0`), `SNE Vx, Vy` (`9XY0`),
`SKP Vx` (`EX9E`) or `SKNP Vx` (`EXA1`) -- the last two with `Vx <= 15` -- ends
with `pc = pc + 4` when the condition of the instruction holds and with
`pc = pc + 2` otherwise, and changes no V register. -/
theorem C7_skip_instructions (s : Chip8) (x y nn : Nat) (hx : x < 16) (hy : y < 16)
    (hnn : nn < 256) (hpc : s.pc ≤ 4094) :
    (s.memory s.pc = 0x30 + x → s.memory (s.pc + 1) = nn →
      ∃ s', emulateCycle s = some s' ∧ s'.V = s.V ∧
        s'.pc = if s.V x = nn then s.pc + 4 else s.pc + 2) ∧
    (s.memory s.pc = 0x40 + x → s.memory (s.pc + 1) = nn →
      ∃ s', emulateCycle s = some s' ∧ s'.V = s.V ∧
        s'.pc = if s.V x ≠ nn then s.pc + 4 else s.pc + 2) ∧
    (s.memory s.pc = 0x50 + x → s.memory (s.pc + 1) = y * 16 →
      ∃ s', emulateCycle s = some s' ∧ s'.V = s.V ∧
        s'.pc = if s.V x = s.V y then s.pc + 4 else s.pc + 2) ∧
    (s.memory s.pc = 0x90 + x → s.memory (s.pc + 1) = y * 16 →
      ∃ s', emulateCycle s = some s' ∧ s'.V = s.V ∧
        s'.pc = if s.V x ≠ s.V y then s.pc + 4 else s.pc + 2) ∧
    (s.memory s.pc = 0xE0 + x → s.memory (s.pc + 1) = 0x9E → s.V x ≤ 15 →
      ∃ s', emulateCycle s = some s' ∧ s'.V = s.V ∧
        s'.pc = if s.keys (s.V x) ≠ 0 then s.pc + 4 else s.pc + 2) ∧
    (s.memory s.pc = 0xE0 + x → s.memory (s.pc + 1) = 0xA1 → s.V x ≤ 15 →
      ∃ s', emulateCycle s = some s' ∧ s'.V = s.V ∧
        s'.pc = if s.keys (s.V x) = 0 then s.pc + 4 else s.pc + 2) := by
  refine ⟨fun h0 h1 => ?_, fun h0 h1 => ?_, fun h0 h1 => ?_, fun h0 h1 => ?_,
    fun h0 h1 _ => ?_, fun h0 h1 _ => ?_⟩
  · have hf := fetch_bytes s _ _ h0 h1 (by omega) hnn
    have e1 : ((0x30 + x) * 256 + nn) / 256 % 16 = x := by omega
    have e2 : ((0x30 + x) * 256 + nn) % 256 = nn := by omega
    refine skip_cycle s _ op_3XNN _ hpc hf ?_ ?_
    · have e : ((0x30 + x) * 256 + nn) / 4096 % 16 = 3 := by omega
      simp only [decode, e]
    · simp only [op_3XNN, getX_afterFetch, getNN_afterFetch, afterFetch_V, e1, e2]
  · have hf := fetch_bytes s _ _ h0 h1 (by omega) hnn
    have e1 : ((0x40 + x) * 256 + nn) / 256 % 16 = x := by omega
    have e2 : ((0x40 + x) * 256 + nn) % 256 = nn := by omega
    refine skip_cycle s _ op_4XNN _ hpc hf ?_ ?_
    · have e : ((0x40 + x) * 256 + nn) / 4096 % 16 = 4 := by omega
      simp only [decode, e]
    · simp only [op_4XNN, getX_afterFetch, getNN_afterFetch, afterFetch_V, e1, e2]
  · have hf := fetch_bytes s _ _ h0 h1 (by omega) (by omega)
    have e1 : ((0x50 + x) * 256 + y * 16) / 256 % 16 = x := by omega
    have e2 : ((0x50 + x) * 256 + y * 16) / 16 % 16 = y := by omega
    refine skip_cycle s _ op_5XY0 _ hpc hf ?_ ?_
    · have e : ((0x50 + x) * 256 + y * 16) / 4096 % 16 = 5 := by omega
      simp only [decode, e]
    · simp only [op_5XY0, getX_afterFetch, getY_afterFetch, afterFetch_V, e1, e2]
  · have hf := fetch_bytes s _ _ h0 h1 (by omega) (by omega)
    have e1 : ((0x90 + x) * 256 + y * 16) / 256 % 16 = x := by omega
    have e2 : ((0x90 + x) * 256 + y * 16) / 16 % 16 = y := by omega
    refine skip_cycle s _ op_9XY0 _ hpc hf ?_ ?_
    · have e : ((0x90 + x) * 256 + y * 16) / 4096 % 16 = 9 := by omega
      simp only [decode, e]
    · simp only [op_9XY0, getX_afterFetch, getY_afterFetch, afterFetch_V, e1, e2]
  · have hf := fetch_bytes s _ _ h0 h1 (by omega) (by decide)
    have e1 : ((0xE0 + x) * 256 + 0x9E) / 256 % 16 = x := by omega
    refine skip_cycle s _ op_EX9E _ hpc hf ?_ ?_
    · have e : ((0xE0 + x) * 256 + 0x9E) / 4096 % 16 = 0xE := by omega
      have e' : ((0xE0 + x) * 256 + 0x9E) % 16 = 0xE := by omega
      simp only [decode, e, e', op_tableE]
    · simp only [op_EX9E, getX_afterFetch, afterFetch_V, afterFetch_keys, e1]
  · have hf := fetch_bytes s _ _ h0 h1 (by omega) (by decide)
    have e1 : ((0xE0 + x) * 256 + 0xA1) / 256 % 16 = x := by omega
    refine skip_cycle s _ op_EXA1 (s.keys (s.V x) = 0) hpc hf ?_ ?_
    · have e : ((0xE0 + x) * 256 + 0xA1) / 4096 % 16 = 0xE := by omega
      have e' : ((0xE0 + x) * 256 + 0xA1) % 16 = 0x1 := by omega
      simp only [decode, e, e', op_tableE]
    · simp only [op_EXA1, getX_afterFetch, afterFetch_V, afterFetch_keys, e1, not_not]

/-- C7, on the fresh machine: `SE V0, 0` at `0x200` skips (`V0 = 0`), and so
does `SKNP V0` (key 0 is not pressed); both end with `pc = 0x204`. -/
theorem C7_skip_instructions_witness :
    (∃ s', emulateCycle (loadROM (Chip8_Chip8 (fun _ => 0)) (some [0x30, 0x00])) = some s' ∧
      s'.pc = 0x204) ∧
    (∃ s', emulateCycle (loadROM (Chip8_Chip8 (fun _ => 0)) (some [0xE0, 0xA1])) = some s' ∧
      s'.pc = 0x204) := by
  constructor
  · obtain ⟨s', h, -, hp⟩ :=
      (C7_skip_instructions (loadROM (Chip8_Chip8 (fun _ => 0)) (some [0x30, 0x00])) 0 0 0
        (by decide) (by decide) (by decide) (by decide)).1 (by decide) (by decide)
    exact ⟨s', h, hp⟩
  · obtain ⟨s', h, -, hp⟩ :=
      (C7_skip_instructions (loadROM (Chip8_Chip8 (fun _ => 0)) (some [0xE0, 0xA1])) 0 0 0
        (by decide) (by decide) (by decide) (by decide)).2.2.2.2.2 (by decide) (by decide)
        (by decide)
    exact ⟨s', h, hp⟩

/-! ## C8, C9: `LD Vx, K` -/

/-- The scan finds nothing when no key in its range is on. -/
theorem op_FX0A_scan_none (keys : Nat → Nat) (todo i : Nat)
    (h : ∀ j, i ≤ j → j < i + todo → keys j = 0) : op_FX0A_scan keys i todo = none := by
  induction todo generalizing i with
  | zero => rfl
  | succ n ih =>
    have hi : keys i = 0 := h i (Nat.le_refl i) (by omega)
    simp only [op_FX0A_scan, hi, ne_eq, not_true_eq_false, if_false]
    exact ih (i + 1) (fun j h1 h2 => h j (by omega) (by omega))

/-- The scan returns the lowest index in its range whose key is on. -/
theorem op_FX0A_scan_some (keys : Nat → Nat) (todo i : Nat)
    (h : ∃ j, i ≤ j ∧ j < i + todo ∧ keys j ≠ 0) :
    ∃ k, op_FX0A_scan keys i todo = some k ∧ i ≤ k ∧ k < i + todo ∧ keys k ≠ 0 ∧
      ∀ j, i ≤ j → j < k → keys j = 0 := by
  induction todo generalizing i with
  | zero =>
    obtain ⟨j, h1, h2, -⟩ := h
    omega
  | succ n ih =>
    by_cases hi : keys i ≠ 0
    · refine ⟨i, by rw [op_FX0A_scan, if_pos hi], Nat.le_refl i, by omega, hi, ?_⟩
      intro j h1 h2
      omega
    · obtain ⟨j, h1, h2, h3⟩ := h
      have hji : j ≠ i := fun e => hi (e ▸ h3)
      obtain ⟨k, hk, hk1, hk2, hk3, hk4⟩ := ih (i + 1) ⟨j, by omega, by omega, h3⟩
      refine ⟨k, by rw [op_FX0A_scan, if_neg hi]; exact hk, by omega, by omega, hk3, ?_⟩
      intro j' h1' h2'
      by_cases e : j' = i
      · subst e
        exact not_not.mp hi
      · exact hk4 j' (by omega) h2'

/-- One cycle of `LD Vx, K` with no key on: everything but the timers and the
transient `opcode` is as before. -/
theorem key_wait_cycle (s : Chip8) (x : Nat) (hx : x < 16) (hpc : s.pc ≤ 4094)
    (h0 : s.memory s.pc = 0xF0 + x) (h1 : s.memory (s.pc + 1) = 0x0A)
    (hk : ∀ i < 16, s.keys i = 0) :
    ∃ s', emulateCycle s = some s' ∧ s'.pc = s.pc ∧ s'.V = s.V ∧ s'.I = s.I ∧
      s'.sp = s.sp ∧ s'.stack = s.stack ∧ s'.memory = s.memory ∧
      s'.display = s.display ∧ s'.keys = s.keys := by
  have hf := fetch_bytes s _ _ h0 h1 (by omega) (by decide)
  have hd : decode ((0xF0 + x) * 256 + 0x0A) = some op_FX0A := by
    have e : ((0xF0 + x) * 256 + 0x0A) / 4096 % 16 = 0xF := by omega
    have e' : ((0xF0 + x) * 256 + 0x0A) % 256 = 0x0A := by omega
    simp only [decode, e, e', op_tableF]
  refine ⟨_, emulateCycle_of_decode s _ op_FX0A hf hd, ?_⟩
  obtain ⟨hV, hM, hI, hP, hS, hSp, hK, hD, -⟩ :=
    updateTimers_frame (op_FX0A (afterFetch s ((0xF0 + x) * 256 + 0x0A)))
  rw [hV, hM, hI, hP, hS, hSp, hD, hK]
  have hscan : op_FX0A_scan s.keys 0 16 = none :=
    op_FX0A_scan_none s.keys 16 0 (fun j _ h2 => hk j (by omega))
  simp only [op_FX0A, afterFetch_keys, hscan, afterFetch_pc, afterFetch_V, afterFetch_I,
    afterFetch_sp, afterFetch_stack, afterFetch_memory, afterFetch_display, and_true]
  omega

/-- C8. With `pc <= 4094`, `LD Vx, K` (`0xFX0A`) at `pc` and all 16 key flags
off, any number `n` of cycles returns a state with the initial `pc` and with
the V registers, `I`, `sp`, the stack, memory and the display unchanged. -/
theorem C8_key_wait_no_progress (s : Chip8) (x : Nat) (hx : x < 16) (hpc : s.pc ≤ 4094)
    (h0 : s.memory s.pc = 0xF0 + x) (h1 : s.memory (s.pc + 1) = 0x0A)
    (hk : ∀ i < 16, s.keys i = 0) (n : Nat) :
    ∃ s', emulateCycles n s = some s' ∧ s'.pc = s.pc ∧ s'.V = s.V ∧ s'.I = s.I ∧
      s'.sp = s.sp ∧ s'.stack = s.stack ∧ s'.memory = s.memory ∧
      s'.display = s.display := by
  induction n generalizing s with
  | zero => exact ⟨s, rfl, rfl, rfl, rfl, rfl, rfl, rfl, rfl⟩
  | succ n ih =>
    obtain ⟨s1, hc, hP, hV, hI, hSp, hS, hM, hD, hK⟩ := key_wait_cycle s x hx hpc h0 h1 hk
    obtain ⟨s', hn, hP', hV', hI', hSp', hS', hM', hD'⟩ :=
      ih s1 (by rw [hP]; exact hpc) (by rw [hP, hM]; exact h0) (by rw [hP, hM]; exact h1)
        (by rw [hK]; exact hk)
    refine ⟨s', ?_, by rw [hP', hP], by rw [hV', hV], by rw [hI', hI], by rw [hSp', hSp],
      by rw [hS', hS], by rw [hM', hM], by rw [hD', hD]⟩
    show (emulateCycle s).bind (emulateCycles n) = some s'
    rw [hc, Option.some_bind, hn]

/-- C8, on the fresh machine with `LD V0, K` (`F0 0A`) at `0x200`: after 100
cycles `pc` is still `0x200`. -/
theorem C8_key_wait_no_progress_witness :
    ∃ s', emulateCycles 100 (loadROM (Chip8_Chip8 (fun _ => 0)) (some [0xF0, 0x0A])) = some s' ∧
      s'.pc = 0x200 := by
  obtain ⟨s', h, hp, -⟩ :=
    C8_key_wait_no_progress (loadROM (Chip8_Chip8 (fun _ => 0)) (some [0xF0, 0x0A])) 0
      (by decide) (by decide) (by decide) (by decide) (by decide) 100
  exact ⟨s', h, hp⟩

/-- C9. With `pc <= 4094`, `LD Vx, K` (`0xFX0A`) at `pc` and at least one of the
16 key flags on, one cycle sets `Vx` to the lowest index `k` in `0..15` whose
flag is on, sets `pc = pc + 2` and leaves every other V register unchanged. -/
theorem C9_key_wait_lowest_key (s : Chip8) (x : Nat) (hx : x < 16) (hpc : s.pc ≤ 4094)
    (h0 : s.memory s.pc = 0xF0 + x) (h1 : s.memory (s.pc + 1) = 0x0A)
    (hk : ∃ i < 16, s.keys i ≠ 0) :
    ∃ s' k, emulateCycle s = some s' ∧ k < 16 ∧ s.keys k ≠ 0 ∧ (∀ j < k, s.keys j = 0) ∧
      s'.V x = k ∧ s'.pc = s.pc + 2 ∧ ∀ i, i ≠ x → s'.V i = s.V i := by
  have hf := fetch_bytes s _ _ h0 h1 (by omega) (by decide)
  have hd : decode ((0xF0 + x) * 256 + 0x0A) = some op_FX0A := by
    have e : ((0xF0 + x) * 256 + 0x0A) / 4096 % 16 = 0xF := by omega
    have e' : ((0xF0 + x) * 256 + 0x0A) % 256 = 0x0A := by omega
    simp only [decode, e, e', op_tableF]
  obtain ⟨i, hi, hki⟩ := hk
  obtain ⟨k, hscan, -, hk16, hkon, hlow⟩ :=
    op_FX0A_scan_some s.keys 16 0 ⟨i, Nat.zero_le i, by omega, hki⟩
  refine ⟨_, k, emulateCycle_of_decode s _ op_FX0A hf hd, by omega, hkon,
    fun j hj => hlow j (Nat.zero_le j) hj, ?_⟩
  obtain ⟨hV, -, -, hP, -⟩ :=
    updateTimers_frame (op_FX0A (afterFetch s ((0xF0 + x) * 256 + 0x0A)))
  rw [hV, hP]
  have e1 : ((0xF0 + x) * 256 + 0x0A) / 256 % 16 = x := by omega
  have e2 : k % 256 = k := by omega
  simp only [op_FX0A, afterFetch_keys, hscan, getX_afterFetch, afterFetch_V, afterFetch_pc,
    e1, e2, write_same, true_and]
  refine ⟨by omega, fun j hj => write_other _ _ _ _ hj⟩

/-- C9, on a fresh machine with `LD V3, K` at `0x200` on which the host has
set the flags of keys 5 and 9: the cycle stores 5 in `V3`. -/
theorem C9_key_wait_lowest_key_witness :
    ∃ s', emulateCycle (machineKeys59) = some s' ∧ s'.V 3 = 5 ∧ s'.pc = 0x202 := by
  obtain ⟨s', k, h, hk16, hkon, hlow, hv, hp, -⟩ :=
    C9_key_wait_lowest_key machineKeys59 3 (by decide) (by decide) (by decide) (by decide)
      ⟨5, by decide, by decide⟩
  refine ⟨s', h, ?_, hp⟩
  have h5 : ¬ (5 < k) := fun h5 => absurd (hlow 5 h5) (by decide)
  have hk5 : k = 5 := by
    have : k < 6 := by omega
    interval_cases k <;> first | rfl | exact absurd rfl hkon
  rw [hv, hk5]

/-! ## C10: the timers -/

/-- A loop whose body keeps some component of the state keeps it as a whole. -/
theorem foldl_keeps {α β : Type} (p : Chip8 → β) (f : Chip8 → α → Chip8)
    (hf : ∀ s a, p (f s a) = p s) (l : List α) (s : Chip8) : p (l.foldl f s) = p s := by
  induction l generalizing s with
  | nil => rfl
  | cons a l ih => rw [List.foldl_cons, ih, hf]

/-- A cycle returns a state exactly when the fetched word selects a handler. -/
theorem emulateCycle_isSome (s : Chip8) :
    (emulateCycle s).isSome = dispatches (fetch s) := by
  rw [emulateCycle_decode, Option.isSome_map']
  rfl

/-- The two secondary slots that keep the initial `&Chip8::null`:
`op_tableE[0]` and `op_tableF[0]`.  A cycle on such a word changes nothing
but `opcode`, `pc` and the timers. -/
theorem null_slot_cycle (s : Chip8) (w : Nat) (hf : fetch s = w)
    (hw : (w / 4096 % 16 = 0xE ∧ w % 16 = 0) ∨ (w / 4096 % 16 = 0xF ∧ w % 256 = 0)) :
    emulateCycle s = some (updateTimers (afterFetch s w)) := by
  refine emulateCycle_of_decode s w null hf ?_
  rcases hw with ⟨e, e'⟩ | ⟨e, e'⟩
  · simp only [decode, e, e', op_tableE]
  · simp only [decode, e, e', op_tableF]

/-- C11. On the fresh machine, a cycle that fetches `0x0001`, `0x8008`,
`0xE002` or `0xF0FF` has no result: the slot selected holds no handler (it was
never assigned, or lies past the end of its table), so the cycle is not a
no-op that advances `pc` by 2. -/
theorem C11_unassigned_slot_no_result :
    (emulateCycle (loadROM (Chip8_Chip8 (fun _ => 0)) (some romUnmapped0))).isSome = false ∧
    (emulateCycle (loadROM (Chip8_Chip8 (fun _ => 0)) (some romUnmapped8))).isSome = false ∧
    (emulateCycle (loadROM (Chip8_Chip8 (fun _ => 0)) (some romUnmappedE))).isSome = false ∧
    (emulateCycle (loadROM (Chip8_Chip8 (fun _ => 0)) (some romUnmappedF))).isSome = false := by
  decide

/-! ## C12: which pixels `DRW` toggles -/

/-- C12. The drawn pattern does not follow the bits of the sprite byte.  With
the byte `0xF0` (bit 7 set) at `I`, `DRW V0, V0, 1` leaves pixel 0 off; with
the byte `0x01` (only bit 0 set) it turns pixels 0, 3 and 7 on alike. -/
theorem C12_draw_ignores_sprite_bits :
    (emulateCycles 2 (loadROM (Chip8_Chip8 (fun _ => 0)) (some romDrawGlyphRow))).map
        (fun s => (s.memory s.I, s.display 0, s.display 3, s.display 7))
      = some (0xF0, 0, 0, 0) ∧
    (emulateCycles 2 (loadROM (Chip8_Chip8 (fun _ => 0)) (some romDrawLowBit))).map
        (fun s => (s.memory s.I, s.display 0, s.display 3, s.display 7))
      = some (0x01, 0xFFFFFFFF, 0xFFFFFFFF, 0xFFFFFFFF) := by
  decide!

/-! ## C14: a fetch past the end of memory -/

/-- C14, as stated, fails: the fresh machine running
`LD I, 0xFFF; LD V0, 0x60; LD [I], V0; JP 0xFFF` reaches, after 4 cycles,
`pc = 0xFFF` with `0x60` in the last memory cell, where the fetch leaves the
bounds of `memory`; the 5th cycle is not refused, it runs a handler and
returns a state with `pc = 0x1001`. -/
theorem C14_fetch_past_memory_runs :
    (emulateCycles 4 (loadROM (Chip8_Chip8 (fun _ => 0)) (some romStoreJumpToEnd))).map
        (fun s => (s.pc, s.memory 0xFFF, fetchInBounds s)) = some (0xFFF, 0x60, false) ∧
    (emulateCycles 5 (loadROM (Chip8_Chip8 (fun _ => 0)) (some romStoreJumpToEnd))).map
        (fun s => s.pc) = some 0x1001 := by
  decide!

/-- C14, amended. For every state with `pc = 4095` whose last memory cell holds
`0x6X` (`LD Vx, byte`), whatever byte the read at index 4096 returns: the
fetch leaves the bounds of `memory`, the cycle is not refused, it runs the
handler and returns a state with `pc = 4097`; `I`, `sp`, the V registers other
than `Vx`, memory, the stack and the display are unchanged.  Nothing is stated
about `Vx`, which receives the byte read out of bounds. -/
theorem C14_no_bounds_check (s : Chip8) (x : Nat) (hx : x < 16) (hpc : s.pc = 4095)
    (h0 : s.memory 4095 = 0x60 + x) (hb : s.memory 4096 < 256) :
    fetchInBounds s = false ∧
    ∃ s', emulateCycle s = some s' ∧ s'.pc = 4097 ∧ s'.I = s.I ∧ s'.sp = s.sp ∧
      (∀ i < 16, i ≠ x → s'.V i = s.V i) ∧ (∀ a < 4096, s'.memory a = s.memory a) ∧
      (∀ i < 16, s'.stack i = s.stack i) ∧ (∀ p < 2048, s'.display p = s.display p) := by
  refine ⟨by simp only [fetchInBounds, hpc, decide_eq_false_iff_not]; omega, ?_⟩
  have hf := fetch_bytes s (0x60 + x) (s.memory 4096) (by rw [hpc]; exact h0)
    (by rw [hpc]) (by omega) hb
  have hd : decode ((0x60 + x) * 256 + s.memory 4096) = some op_6XNN := by
    have e : ((0x60 + x) * 256 + s.memory 4096) / 4096 % 16 = 6 := by omega
    simp only [decode, e]
  refine ⟨_, emulateCycle_of_decode s _ op_6XNN hf hd, ?_⟩
  obtain ⟨hV, hM, hI, hP, hS, hSp, -, hD, -⟩ :=
    updateTimers_frame (op_6XNN (afterFetch s ((0x60 + x) * 256 + s.memory 4096)))
  rw [hV, hM, hI, hP, hS, hSp, hD]
  have gx : ((0x60 + x) * 256 + s.memory 4096) / 256 % 16 = x := by omega
  simp only [op_6XNN, getX_afterFetch, gx, afterFetch_pc, afterFetch_I, afterFetch_sp,
    afterFetch_V, afterFetch_memory, afterFetch_stack, afterFetch_display, hpc]
  exact ⟨trivial, trivial, trivial, fun i _ hi => write_other _ _ _ _ hi, fun _ _ => trivial,
    fun _ _ => trivial, fun _ _ => trivial⟩

/-- C14, amended, at the state that the fresh machine running
`LD I, 0xFFF; LD V0, 0x60; LD [I], V0; JP 0xFFF` reaches after 4 cycles: the
5th cycle returns a state with `pc = 4097`. -/
theorem C14_no_bounds_check_witness :
    ∃ s5, emulateCycles 5 (loadROM (Chip8_Chip8 (fun _ => 0)) (some romStoreJumpToEnd))
        = some s5 ∧ s5.pc = 4097 := by
  obtain ⟨s4, h4⟩ : ∃ s4,
      emulateCycles 4 (loadROM (Chip8_Chip8 (fun _ => 0)) (some romStoreJumpToEnd)) = some s4 :=
    Option.isSome_iff_exists.mp (by decide!)
  have hs4 : ∀ t ∈ emulateCycles 4 (loadROM (Chip8_Chip8 (fun _ => 0)) (some romStoreJumpToEnd)),
      t.pc = 4095 ∧ t.memory 4095 = 0x60 + 0 ∧ t.memory 4096 < 256 := by
    decide!
  obtain ⟨a, b, c⟩ := hs4 s4 h4
  obtain ⟨-, s5, h5, hp, -⟩ := C14_no_bounds_check s4 0 (by decide) a b c
  refine ⟨s5, ?_, hp⟩
  rw [emulateCycles_succ, h4, Option.some_bind, h5]

/-! ## C18: `SUB Vx, VF` -/

/-- C18. With `y = 0xF` the flag replaces the operand before it is read: after
`LD V0, 5; LD VF, 3` the instruction `SUB V0, VF` leaves `V0 = 4` (5 minus the
new flag 1), not `5 - 3 = 2`. -/
theorem C18_sub_reads_new_flag :
    (emulateCycles 2 (loadROM (Chip8_Chip8 (fun _ => 0)) (some romSubVF))).map
        (fun s => (s.V 0, s.V 0xF, fetch s)) = some (5, 3, 0x80F5) ∧
    (emulateCycles 3 (loadROM (Chip8_Chip8 (fun _ => 0)) (some romSubVF))).map
        (fun s => s.V 0) = some 4 := by
  decide

/-! ## The instructions `0xFXnn` -/

/-- The words `0xFXnn`: the handler is slot `nn` of `op_tableF`. -/
theorem decode_FX (x nn : Nat) (hx : x < 16) (hnn : nn < 256) :
    decode ((0xF0 + x) * 256 + nn) = op_tableF nn := by
  have e : ((0xF0 + x) * 256 + nn) / 4096 % 16 = 0xF := by omega
  have e' : ((0xF0 + x) * 256 + nn) % 256 = nn := by omega
  simp only [decode, e, e']

/-! ## C15: `LD B, Vx` -/

/-- C15. For every register value `Vx` in `0..255` and every `I <= 4093`, a cycle
that fetches `LD B, Vx` (`0xFX33`) leaves in `memory[I]`, `memory[I+1]`,
`memory[I+2]` three values of at most 9 with
`100 * memory[I] + 10 * memory[I+1] + memory[I+2] = Vx`; every other memory
cell, every V register and `I` are unchanged. -/
theorem C15_bcd (s : Chip8) (x : Nat) (hx : x < 16) (hv : s.V x < 256) (_hI : s.I ≤ 4093)
    (_hpc : s.pc ≤ 4094) (h0 : s.memory s.pc = 0xF0 + x) (h1 : s.memory (s.pc + 1) = 0x33) :
    ∃ s', emulateCycle s = some s' ∧
      s'.memory s.I ≤ 9 ∧ s'.memory (s.I + 1) ≤ 9 ∧ s'.memory (s.I + 2) ≤ 9 ∧
      100 * s'.memory s.I + 10 * s'.memory (s.I + 1) + s'.memory (s.I + 2) = s.V x ∧
      (∀ a, a ≠ s.I → a ≠ s.I + 1 → a ≠ s.I + 2 → s'.memory a = s.memory a) ∧
      s'.V = s.V ∧ s'.I = s.I := by
  have hf := fetch_bytes s _ _ h0 h1 (by omega) (by decide)
  have hd : decode ((0xF0 + x) * 256 + 0x33) = some op_FX33 := by
    have e : ((0xF0 + x) * 256 + 0x33) / 4096 % 16 = 0xF := by omega
    have e' : ((0xF0 + x) * 256 + 0x33) % 256 = 0x33 := by omega
    simp only [decode, e, e', op_tableF]
  refine ⟨_, emulateCycle_of_decode s _ op_FX33 hf hd, ?_⟩
  obtain ⟨hV, hM, hI, -⟩ := updateTimers_frame (op_FX33 (afterFetch s ((0xF0 + x) * 256 + 0x33)))
  rw [hV, hM, hI]
  have e1 : ((0xF0 + x) * 256 + 0x33) / 256 % 16 = x := by omega
  simp only [op_FX33, getX_afterFetch, afterFetch_V, afterFetch_I, afterFetch_memory, e1]
  have n1 : s.I ≠ s.I + 1 := by omega
  have n2 : s.I ≠ s.I + 2 := by omega
  have n3 : s.I + 1 ≠ s.I + 2 := by omega
  refine ⟨?_, ?_, ?_, ?_, ?_, trivial, trivial⟩
  · rw [write_same]; omega
  · rw [write_other _ _ _ _ n1.symm, write_same]; omega
  · rw [write_other _ _ _ _ n2.symm, write_other _ _ _ _ n3.symm, write_same]; omega
  · rw [write_same, write_other _ _ _ _ n1.symm, write_same, write_other _ _ _ _ n2.symm,
      write_other _ _ _ _ n3.symm, write_same]
    omega
  · intro a a0 a1 a2
    rw [write_other _ _ _ _ a0, write_other _ _ _ _ a1, write_other _ _ _ _ a2]

/-- C15, at `V0 = 254`, `I = 0x300`: the cycle stores 2, 5, 4. -/
theorem C15_bcd_witness :
    ∃ s', emulateCycle machineBcd = some s' ∧
      s'.memory 0x300 = 2 ∧ s'.memory 0x301 = 5 ∧ s'.memory 0x302 = 4 := by
  obtain ⟨s', h, a, b, c, e, -⟩ :=
    C15_bcd machineBcd 0 (by decide) (by decide) (by decide) (by decide) (by decide)
      (by decide)
  have hI : machineBcd.I = 0x300 := rfl
  have hV : machineBcd.V 0 = 254 := by decide
  rw [hI] at a b c e
  rw [hV] at e
  simp only [Nat.reduceAdd] at b c e
  exact ⟨s', h, by omega, by omega, by omega⟩

/-! ## C16: `LD [I], Vx` and `LD Vx, [I]` -/

/-- The store loop of `op_FX55`, run for `k` registers. -/
theorem op_FX55_loop (s : Chip8) (k : Nat) :
    ((List.range k).foldl
        (fun s i => { s with memory := write s.memory (s.I + i) (s.V i) }) s).V = s.V ∧
    ((List.range k).foldl
        (fun s i => { s with memory := write s.memory (s.I + i) (s.V i) }) s).I = s.I ∧
    ∀ a, ((List.range k).foldl
        (fun s i => { s with memory := write s.memory (s.I + i) (s.V i) }) s).memory a =
      if s.I ≤ a ∧ a < s.I + k then s.V (a - s.I) else s.memory a := by
  induction k with
  | zero =>
    refine ⟨rfl, rfl, fun a => ?_⟩
    have : ¬ (s.I ≤ a ∧ a < s.I + 0) := by omega
    simp only [this, if_false]
    rfl
  | succ k ih =>
    obtain ⟨hV, hI, hM⟩ := ih
    rw [List.range_succ, List.foldl_append]
    simp only [List.foldl_cons, List.foldl_nil, hV, hI]
    refine ⟨trivial, trivial, fun a => ?_⟩
    by_cases ha : a = s.I + k
    · subst ha
      rw [write_same]
      have : s.I ≤ s.I + k ∧ s.I + k < s.I + (k + 1) := by omega
      simp only [this, and_self, if_true, Nat.add_sub_cancel_left]
    · rw [write_other _ _ _ _ ha, hM a]
      by_cases hin : s.I ≤ a ∧ a < s.I + k
      · have : s.I ≤ a ∧ a < s.I + (k + 1) := by omega
        simp only [hin, this, and_self, if_true]
      · have : ¬ (s.I ≤ a ∧ a < s.I + (k + 1)) := by omega
        simp only [hin, this, if_false]

/-- The load loop of `op_FX65`, run for `k` registers. -/
theorem op_FX65_loop (s : Chip8) (k : Nat) :
    ((List.range k).foldl
        (fun s i => { s with V := write s.V i (s.memory (s.I + i)) }) s).memory = s.memory ∧
    ((List.range k).foldl
        (fun s i => { s with V := write s.V i (s.memory (s.I + i)) }) s).I = s.I ∧
    ∀ i, ((List.range k).foldl
        (fun s i => { s with V := write s.V i (s.memory (s.I + i)) }) s).V i =
      if i < k then s.memory (s.I + i) else s.V i := by
  induction k with
  | zero => exact ⟨rfl, rfl, fun i => rfl⟩
  | succ k ih =>
    obtain ⟨hM, hI, hV⟩ := ih
    rw [List.range_succ, List.foldl_append]
    simp only [List.foldl_cons, List.foldl_nil, hM, hI]
    refine ⟨trivial, trivial, fun i => ?_⟩
    by_cases hi : i = k
    · subst hi
      rw [write_same]
      simp only [Nat.lt_succ_self, if_true]
    · rw [write_other _ _ _ _ hi, hV i]
      by_cases hin : i < k
      · have : i < k + 1 := by omega
        simp only [hin, this, if_true]
      · have : ¬ i < k + 1 := by omega
        simp only [hin, this, if_false]

/-- C16. For `x` in `0..15` and `I + x <= 4095`, a cycle that fetches
`LD [I], Vx` (`0xFX55`) writes `memory[I + i] = Vi` for every `i <= x` and
changes no other memory cell, no V register and not `I`.  From any later
state `t` with that memory and that `I` (only V registers modified), a cycle
that fetches `LD Vx, [I]` (`0xFX65`) sets `V0..Vx` back to the values they
had at the store and leaves `V(x+1)..VF` and `I` unchanged. -/
theorem C16_store_load_round_trip (s : Chip8) (x : Nat) (hx : x < 16) (_hI : s.I + x ≤ 4095)
    (_hpc : s.pc ≤ 4094) (h0 : s.memory s.pc = 0xF0 + x) (h1 : s.memory (s.pc + 1) = 0x55) :
    ∃ s1, emulateCycle s = some s1 ∧
      (∀ i ≤ x, s1.memory (s.I + i) = s.V i) ∧
      (∀ a, (a < s.I ∨ s.I + x < a) → s1.memory a = s.memory a) ∧
      s1.V = s.V ∧ s1.I = s.I ∧
      ∀ t : Chip8, t.memory = s1.memory → t.I = s1.I → t.pc ≤ 4094 →
        t.memory t.pc = 0xF0 + x → t.memory (t.pc + 1) = 0x65 →
        ∃ t', emulateCycle t = some t' ∧ (∀ i ≤ x, t'.V i = s.V i) ∧
          (∀ i, x < i → t'.V i = t.V i) ∧ t'.I = t.I := by
  have hf := fetch_bytes s _ _ h0 h1 (by omega) (by decide)
  have e1 : ((0xF0 + x) * 256 + 0x55) / 256 % 16 = x := by omega
  refine ⟨_, emulateCycle_of_decode s _ op_FX55 hf (decode_FX x 0x55 hx (by decide)), ?_⟩
  obtain ⟨hV, hM, hI, -⟩ := updateTimers_frame (op_FX55 (afterFetch s ((0xF0 + x) * 256 + 0x55)))
  obtain ⟨lV, lI, lM⟩ := op_FX55_loop (afterFetch s ((0xF0 + x) * 256 + 0x55)) (x + 1)
  have hmem : ∀ a, (updateTimers (op_FX55 (afterFetch s ((0xF0 + x) * 256 + 0x55)))).memory a =
      if s.I ≤ a ∧ a < s.I + (x + 1) then s.V (a - s.I) else s.memory a := by
    intro a
    rw [hM]
    simp only [op_FX55, getX_afterFetch, e1]
    exact lM a
  have hreg : (updateTimers (op_FX55 (afterFetch s ((0xF0 + x) * 256 + 0x55)))).V = s.V := by
    rw [hV]
    simp only [op_FX55, getX_afterFetch, e1]
    exact lV
  have hidx : (updateTimers (op_FX55 (afterFetch s ((0xF0 + x) * 256 + 0x55)))).I = s.I := by
    rw [hI]
    simp only [op_FX55, getX_afterFetch, e1]
    exact lI
  refine ⟨fun i hi => ?_, fun a ha => ?_, hreg, hidx, ?_⟩
  · rw [hmem]
    have : s.I ≤ s.I + i ∧ s.I + i < s.I + (x + 1) := by omega
    simp only [this, and_self, if_true, Nat.add_sub_cancel_left]
  · rw [hmem]
    have : ¬ (s.I ≤ a ∧ a < s.I + (x + 1)) := by omega
    simp only [this, if_false]
  · intro t tM tI _ t0 t1
    have tf := fetch_bytes t _ _ t0 t1 (by omega) (by decide)
    have e2 : ((0xF0 + x) * 256 + 0x65) / 256 % 16 = x := by omega
    refine ⟨_, emulateCycle_of_decode t _ op_FX65 tf (decode_FX x 0x65 hx (by decide)), ?_⟩
    obtain ⟨hV', -, hI', -⟩ :=
      updateTimers_frame (op_FX65 (afterFetch t ((0xF0 + x) * 256 + 0x65)))
    obtain ⟨-, mI, mV⟩ := op_FX65_loop (afterFetch t ((0xF0 + x) * 256 + 0x65)) (x + 1)
    have hv : ∀ i, (updateTimers (op_FX65 (afterFetch t ((0xF0 + x) * 256 + 0x65)))).V i =
        if i < x + 1 then t.memory (t.I + i) else t.V i := by
      intro i
      rw [hV']
      simp only [op_FX65, getX_afterFetch, e2]
      exact mV i
    refine ⟨fun i hi => ?_, fun i hi => ?_, ?_⟩
    · rw [hv]
      have : i < x + 1 := by omega
      simp only [this, if_true]
      rw [tM, tI, hidx, hmem]
      have : s.I ≤ s.I + i ∧ s.I + i < s.I + (x + 1) := by omega
      simp only [this, and_self, if_true, Nat.add_sub_cancel_left]
    · rw [hv]
      have : ¬ i < x + 1 := by omega
      simp only [this, if_false]
    · rw [hI']
      simp only [op_FX65, getX_afterFetch, e2]
      exact mI

/-- C16, at `x = 2`, `I = 0x300`, `V0, V1, V2 = 7, 8, 9`: the store puts 9 in
`memory[0x302]`; after all V registers are cleared, the load restores
`V2 = 9` and leaves `V3 = 0`. -/
theorem C16_store_load_round_trip_witness :
    ∃ s1, emulateCycle machineStoreLoad = some s1 ∧ s1.memory 0x302 = 9 ∧
      ∃ t', emulateCycle { s1 with V := fun _ => 0 } = some t' ∧ t'.V 2 = 9 ∧ t'.V 3 = 0 := by
  obtain ⟨s1, h, hst, -, -, -, hld⟩ :=
    C16_store_load_round_trip machineStoreLoad 2 (by decide) (by decide) (by decide)
      (by decide) (by decide)
  have hs1 : ∀ t ∈ emulateCycle machineStoreLoad,
      t.pc ≤ 4094 ∧ t.memory t.pc = 0xF0 + 2 ∧ t.memory (t.pc + 1) = 0x65 := by
    decide
  obtain ⟨a, b, c⟩ := hs1 s1 h
  obtain ⟨t', ht, hv, hrest, -⟩ := hld { s1 with V := fun _ => 0 } rfl rfl a b c
  exact ⟨s1, h, hst 2 (by decide), t', ht, hv 2 (by decide), hrest 3 (by decide)⟩

/-! ## C17: `LD F, Vx` -/

/-- The constructor leaves the font at `0x50 .. 0x9F`, whatever the seed. -/
theorem fresh_font (rnd : Nat → Nat) (i : Nat) (hi : i < 80) :
    (Chip8_Chip8 rnd).memory (0x50 + i) = fontset.getD i 0 := by
  have h : ∀ j < 80, (Chip8_Chip8 (fun _ => 0)).memory (0x50 + j) = fontset.getD j 0 := by
    decide!
  exact h i hi

/-- Every font byte has its low 4 bits zero. -/
theorem fontset_high_nibble (i : Nat) (hi : i < 80) : fontset.getD i 0 % 16 = 0 := by
  have h : ∀ j < 80, fontset.getD j 0 % 16 = 0 := by decide
  exact h i hi

/-- C17. On a machine whose font region `0x50 .. 0x9F` is as the constructor
left it, with `Vx = d` a hexadecimal digit, a cycle that fetches `LD F, Vx`
(`0xFX29`) sets `I = 0x50 + 5 * d`, which lies in `0x050 .. 0x09B`, and the
five bytes `memory[I .. I+4]` are `fontset[5*d .. 5*d+4]`, each with its low
4 bits zero. -/
theorem C17_font_glyph (rnd : Nat → Nat) (s : Chip8) (x d : Nat) (hx : x < 16) (hd : d < 16)
    (hfont : ∀ a < 0xA0, 0x50 ≤ a → s.memory a = (Chip8_Chip8 rnd).memory a)
    (_hpc : s.pc ≤ 4094) (h0 : s.memory s.pc = 0xF0 + x) (h1 : s.memory (s.pc + 1) = 0x29)
    (hv : s.V x = d) :
    ∃ s', emulateCycle s = some s' ∧ s'.I = 0x50 + 5 * d ∧ 0x50 ≤ s'.I ∧ s'.I ≤ 0x9B ∧
      ∀ k < 5, s'.memory (s'.I + k) = fontset.getD (5 * d + k) 0 ∧
        s'.memory (s'.I + k) % 16 = 0 := by
  have hf := fetch_bytes s _ _ h0 h1 (by omega) (by decide)
  have e1 : ((0xF0 + x) * 256 + 0x29) / 256 % 16 = x := by omega
  refine ⟨_, emulateCycle_of_decode s _ op_FX29 hf (decode_FX x 0x29 hx (by decide)), ?_⟩
  obtain ⟨-, hM, hI, -⟩ := updateTimers_frame (op_FX29 (afterFetch s ((0xF0 + x) * 256 + 0x29)))
  rw [hM, hI]
  have eI : (0x50 + 5 * d) % 65536 = 0x50 + 5 * d := by omega
  simp only [op_FX29, getX_afterFetch, afterFetch_V, afterFetch_memory, e1, hv, eI]
  refine ⟨trivial, by omega, by omega, fun k hk => ?_⟩
  have hm : s.memory (0x50 + 5 * d + k) = fontset.getD (5 * d + k) 0 := by
    rw [hfont _ (by omega) (by omega), Nat.add_assoc, fresh_font rnd _ (by omega)]
  rw [hm]
  exact ⟨rfl, fontset_high_nibble _ (by omega)⟩

/-- C17, at `V0 = 0xB`: `I = 0x87`, where the glyph of `B` starts with the rows
`0xE0`, `0x90`. -/
theorem C17_font_glyph_witness :
    ∃ s', emulateCycle machineGlyphB = some s' ∧ s'.I = 0x87 ∧
      s'.memory 0x87 = 0xE0 ∧ s'.memory 0x88 = 0x90 := by
  obtain ⟨s', h, hI, -, -, hg⟩ :=
    C17_font_glyph (fun _ => 0) machineGlyphB 0 0xB (by decide) (by decide) (by decide!)
      (by decide) (by decide) (by decide) (by decide)
  have g0 := (hg 0 (by decide)).1
  have g1 := (hg 1 (by decide)).1
  rw [hI] at g0 g1
  exact ⟨s', h, hI, g0, g1⟩

/-! ## C20: the timer instructions within one cycle -/

/-- C20. A timer written by the handler is decremented in the same cycle: with
`Vx = v`, after a cycle that fetches `LD DT, Vx` (`0xFX15`) the delay timer is
`v - 1` if `v > 0` and 0 if `v = 0`; likewise the sound timer after
`LD ST, Vx` (`0xFX18`); and `LD Vx, DT` (`0xFX07`) stores in `Vx` the delay
timer as it was before the decrement of that cycle. -/
theorem C20_timer_write_then_tick (s : Chip8) (x : Nat) (hx : x < 16) (_hpc : s.pc ≤ 4094)
    (h0 : s.memory s.pc = 0xF0 + x) :
    (s.memory (s.pc + 1) = 0x15 →
      ∃ s', emulateCycle s = some s' ∧
        s'.delay_timer = if s.V x > 0 then s.V x - 1 else 0) ∧
    (s.memory (s.pc + 1) = 0x18 →
      ∃ s', emulateCycle s = some s' ∧
        s'.sound_timer = if s.V x > 0 then s.V x - 1 else 0) ∧
    (s.memory (s.pc + 1) = 0x07 →
      ∃ s', emulateCycle s = some s' ∧ s'.V x = s.delay_timer) := by
  refine ⟨fun h1 => ?_, fun h1 => ?_, fun h1 => ?_⟩
  · have hf := fetch_bytes s _ _ h0 h1 (by omega) (by decide)
    have e1 : ((0xF0 + x) * 256 + 0x15) / 256 % 16 = x := by omega
    refine ⟨_, emulateCycle_of_decode s _ op_FX15 hf (decode_FX x 0x15 hx (by decide)), ?_⟩
    rw [(updateTimers_timers _).1]
    simp only [op_FX15, getX_afterFetch, afterFetch_V, e1]
    split_ifs <;> omega
  · have hf := fetch_bytes s _ _ h0 h1 (by omega) (by decide)
    have e1 : ((0xF0 + x) * 256 + 0x18) / 256 % 16 = x := by omega
    refine ⟨_, emulateCycle_of_decode s _ op_FX18 hf (decode_FX x 0x18 hx (by decide)), ?_⟩
    rw [(updateTimers_timers _).2]
    simp only [op_FX18, getX_afterFetch, afterFetch_V, e1]
    split_ifs <;> omega
  · have hf := fetch_bytes s _ _ h0 h1 (by omega) (by decide)
    have e1 : ((0xF0 + x) * 256 + 0x07) / 256 % 16 = x := by omega
    refine ⟨_, emulateCycle_of_decode s _ op_FX07 hf (decode_FX x 0x07 hx (by decide)), ?_⟩
    rw [(updateTimers_frame _).1]
    simp only [op_FX07, getX_afterFetch, afterFetch_V, afterFetch_delay, e1, write_same]

/-- C20, with `V0 = 5` and the delay timer at 9: `LD DT, V0` leaves the delay
timer at 4, `LD ST, V0` leaves the sound timer at 4, `LD V0, DT` leaves
`V0 = 9`. -/
theorem C20_timer_write_then_tick_witness :
    (∃ s', emulateCycle (machineTimerOp 0x15) = some s' ∧ s'.delay_timer = 4) ∧
    (∃ s', emulateCycle (machineTimerOp 0x18) = some s' ∧ s'.sound_timer = 4) ∧
    (∃ s', emulateCycle (machineTimerOp 0x07) = some s' ∧ s'.V 0 = 9) :=
  ⟨(C20_timer_write_then_tick (machineTimerOp 0x15) 0 (by decide) (by decide)
      (by decide)).1 (by decide),
    (C20_timer_write_then_tick (machineTimerOp 0x18) 0 (by decide) (by decide)
      (by decide)).2.1 (by decide),
    (C20_timer_write_then_tick (machineTimerOp 0x07) 0 (by decide) (by decide)
      (by decide)).2.2 (by decide)⟩

/-! ## The drawing instruction `DRW Vx, Vy, n` -/

/-- For a column below 8 the test of line 313 is the low bit of the byte. -/
theorem op_DXYN_col_test (byte col : Nat) (hc : col < 8) :
    (byte &&& (if (0x80 >>> col) ≠ 0 then 1 else 0) ≠ 0) ↔ byte % 2 = 1 := by
  have h : (0x80 >>> col) ≠ 0 := by
    interval_cases col <;> decide
  rw [if_pos h, Nat.and_one_is_mod]
  omega

/-- A sprite byte with its low bit clear draws nothing. -/
theorem op_DXYN_col_even (xPos yPos row byte : Nat) (s : Chip8) (col : Nat) (hc : col < 8)
    (hb : byte % 2 ≠ 1) : op_DXYN_col xPos yPos row byte s col = s := by
  unfold op_DXYN_col
  rw [if_neg (fun h => hb ((op_DXYN_col_test byte col hc).mp h))]

/-- A sprite byte with its low bit set toggles the pixel of the column,
whatever the column, and raises `VF` when that pixel was on. -/
theorem op_DXYN_col_odd (xPos yPos row byte : Nat) (s : Chip8) (col : Nat) (hc : col < 8)
    (hb : byte % 2 = 1) :
    (∀ p, (op_DXYN_col xPos yPos row byte s col).display p =
      if p = col + xPos + (yPos + row) * 64 then s.display p ^^^ 0xFFFFFFFF
      else s.display p) ∧
    (op_DXYN_col xPos yPos row byte s col).V 0xF =
      (if s.display (col + xPos + (yPos + row) * 64) = 0xFFFFFFFF then 1 else s.V 0xF) := by
  unfold op_DXYN_col
  rw [if_pos ((op_DXYN_col_test byte col hc).mpr hb)]
  dsimp only
  constructor
  · intro p
    by_cases hp : p = col + xPos + (yPos + row) * 64
    · subst hp
      rw [write_same, if_pos rfl]
      split_ifs <;> rfl
    · rw [write_other _ _ _ _ hp, if_neg hp]
      split_ifs <;> rfl
  · split_ifs with h
    · show write s.V 0xF 1 0xF = 1
      exact write_same _ _ _
    · rfl

/-- What a draw never touches: memory, `I`, `pc` and the registers other
than `VF`. -/
theorem op_DXYN_col_frame (xPos yPos row byte : Nat) (s : Chip8) (col : Nat) :
    (op_DXYN_col xPos yPos row byte s col).memory = s.memory ∧
    (op_DXYN_col xPos yPos row byte s col).I = s.I ∧
    (op_DXYN_col xPos yPos row byte s col).pc = s.pc ∧
    ∀ i, i ≠ 0xF → (op_DXYN_col xPos yPos row byte s col).V i = s.V i := by
  unfold op_DXYN_col
  dsimp only
  split_ifs <;> refine ⟨rfl, rfl, rfl, fun i hi => ?_⟩ <;> first
    | rfl
    | (show write s.V 0xF 1 i = s.V i; exact write_other _ _ _ _ hi)

/-- One sprite row keeps memory, `I`, `pc` and the registers other than `VF`. -/
theorem op_DXYN_row_frame (xPos yPos : Nat) (s : Chip8) (row : Nat) :
    (op_DXYN_row xPos yPos s row).memory = s.memory ∧
    (op_DXYN_row xPos yPos s row).I = s.I ∧
    (op_DXYN_row xPos yPos s row).pc = s.pc ∧
    ∀ i, i ≠ 0xF → (op_DXYN_row xPos yPos s row).V i = s.V i := by
  unfold op_DXYN_row
  refine ⟨?_, ?_, ?_, fun i hi => ?_⟩
  · exact foldl_keeps (fun s => s.memory) _ (fun t c => (op_DXYN_col_frame _ _ _ _ t c).1) _ _
  · exact foldl_keeps (fun s => s.I) _ (fun t c => (op_DXYN_col_frame _ _ _ _ t c).2.1) _ _
  · exact foldl_keeps (fun s => s.pc) _ (fun t c => (op_DXYN_col_frame _ _ _ _ t c).2.2.1) _ _
  · exact foldl_keeps (fun s => s.V i) _
      (fun t c => (op_DXYN_col_frame _ _ _ _ t c).2.2.2 i hi) _ _

/-- A whole draw keeps memory, `I`, `pc` and the registers other than `VF`. -/
theorem op_DXYN_frame (s : Chip8) :
    (op_DXYN s).memory = s.memory ∧ (op_DXYN s).I = s.I ∧ (op_DXYN s).pc = s.pc ∧
    ∀ i, i ≠ 0xF → (op_DXYN s).V i = s.V i := by
  unfold op_DXYN
  refine ⟨?_, ?_, ?_, fun i hi => ?_⟩
  · exact foldl_keeps (fun s => s.memory) _ (fun t r => (op_DXYN_row_frame _ _ t r).1) _ _
  · exact foldl_keeps (fun s => s.I) _ (fun t r => (op_DXYN_row_frame _ _ t r).2.1) _ _
  · exact foldl_keeps (fun s => s.pc) _ (fun t r => (op_DXYN_row_frame _ _ t r).2.2.1) _ _
  · rw [foldl_keeps (fun s => s.V i) _ (fun t r => (op_DXYN_row_frame _ _ t r).2.2.2 i hi)]
    exact write_other _ _ _ _ hi

/-- The column loop on a byte with its low bit clear changes nothing. -/
theorem op_DXYN_cols_even (xPos yPos row byte : Nat) (s : Chip8) (k : Nat) (hk : k ≤ 8)
    (hb : byte % 2 ≠ 1) :
    (List.range k).foldl (op_DXYN_col xPos yPos row byte) s = s := by
  induction k with
  | zero => rfl
  | succ k ih =>
    rw [List.range_succ, List.foldl_append, ih (by omega)]
    exact op_DXYN_col_even _ _ _ _ _ _ (by omega) hb

/-- The column loop on a byte with its low bit set, after `k` columns: the
first `k` pixels of the row are toggled, and `VF` is raised if one was on. -/
theorem op_DXYN_cols_odd (xPos yPos row byte : Nat) (s : Chip8) (k : Nat) (hk : k ≤ 8)
    (hb : byte % 2 = 1) :
    (∀ p, ((List.range k).foldl (op_DXYN_col xPos yPos row byte) s).display p =
      if xPos + (yPos + row) * 64 ≤ p ∧ p < xPos + (yPos + row) * 64 + k
      then s.display p ^^^ 0xFFFFFFFF else s.display p) ∧
    ((∃ q, xPos + (yPos + row) * 64 ≤ q ∧ q < xPos + (yPos + row) * 64 + k ∧
        s.display q = 0xFFFFFFFF) →
      ((List.range k).foldl (op_DXYN_col xPos yPos row byte) s).V 0xF = 1) ∧
    (¬ (∃ q, xPos + (yPos + row) * 64 ≤ q ∧ q < xPos + (yPos + row) * 64 + k ∧
        s.display q = 0xFFFFFFFF) →
      ((List.range k).foldl (op_DXYN_col xPos yPos row byte) s).V 0xF = s.V 0xF) := by
  induction k with
  | zero =>
    refine ⟨fun p => ?_, fun ⟨q, h1, h2, _⟩ => ?_, fun _ => rfl⟩
    · have : ¬ (xPos + (yPos + row) * 64 ≤ p ∧ p < xPos + (yPos + row) * 64 + 0) := by omega
      rw [if_neg this]
      rfl
    · omega
  | succ k ih =>
    obtain ⟨hD, hV1, hV0⟩ := ih (by omega)
    obtain ⟨cD, cV⟩ := op_DXYN_col_odd xPos yPos row byte
      ((List.range k).foldl (op_DXYN_col xPos yPos row byte) s) k (by omega) hb
    rw [List.range_succ, List.foldl_append]
    simp only [List.foldl_cons, List.foldl_nil]
    have hcur : ((List.range k).foldl (op_DXYN_col xPos yPos row byte) s).display
        (k + xPos + (yPos + row) * 64) = s.display (k + xPos + (yPos + row) * 64) := by
      rw [hD]
      have : ¬ (xPos + (yPos + row) * 64 ≤ k + xPos + (yPos + row) * 64 ∧
          k + xPos + (yPos + row) * 64 < xPos + (yPos + row) * 64 + k) := by omega
      rw [if_neg this]
    refine ⟨fun p => ?_, fun ⟨q, h1, h2, h3⟩ => ?_, fun hno => ?_⟩
    · rw [cD p, hD p]
      by_cases hp : p = k + xPos + (yPos + row) * 64
      · have a : xPos + (yPos + row) * 64 ≤ p ∧ p < xPos + (yPos + row) * 64 + (k + 1) := by
          omega
        have b : ¬ (xPos + (yPos + row) * 64 ≤ p ∧ p < xPos + (yPos + row) * 64 + k) := by
          omega
        rw [if_pos hp, if_pos a, if_neg b]
      · rw [if_neg hp]
        by_cases b : xPos + (yPos + row) * 64 ≤ p ∧ p < xPos + (yPos + row) * 64 + k
        · have a : xPos + (yPos + row) * 64 ≤ p ∧ p < xPos + (yPos + row) * 64 + (k + 1) := by
            omega
          rw [if_pos a, if_pos b]
        · have a : ¬ (xPos + (yPos + row) * 64 ≤ p ∧
              p < xPos + (yPos + row) * 64 + (k + 1)) := by omega
          rw [if_neg a, if_neg b]
    · rw [cV, hcur]
      by_cases hq : q = k + xPos + (yPos + row) * 64
      · rw [← hq, if_pos h3]
      · split_ifs
        · rfl
        · exact hV1 ⟨q, h1, by omega, h3⟩
    · rw [cV, hcur]
      have h1 : ¬ s.display (k + xPos + (yPos + row) * 64) = 0xFFFFFFFF :=
        fun h => hno ⟨_, by omega, by omega, h⟩
      rw [if_neg h1]
      exact hV0 (fun ⟨q, a, b, c⟩ => hno ⟨q, a, by omega, c⟩)

/-- One sprite row: its 8 pixels are toggled when the byte at `I + row` has its
low bit set, and `VF` is raised if one of them was on. -/
theorem op_DXYN_row_spec (xPos yPos : Nat) (s : Chip8) (row : Nat) :
    (∀ p, (op_DXYN_row xPos yPos s row).display p =
      if s.memory (s.I + row) % 2 = 1 ∧
          xPos + (yPos + row) * 64 ≤ p ∧ p < xPos + (yPos + row) * 64 + 8
      then s.display p ^^^ 0xFFFFFFFF else s.display p) ∧
    ((s.memory (s.I + row) % 2 = 1 ∧
        ∃ q, xPos + (yPos + row) * 64 ≤ q ∧ q < xPos + (yPos + row) * 64 + 8 ∧
          s.display q = 0xFFFFFFFF) →
      (op_DXYN_row xPos yPos s row).V 0xF = 1) ∧
    (¬ (s.memory (s.I + row) % 2 = 1 ∧
        ∃ q, xPos + (yPos + row) * 64 ≤ q ∧ q < xPos + (yPos + row) * 64 + 8 ∧
          s.display q = 0xFFFFFFFF) →
      (op_DXYN_row xPos yPos s row).V 0xF = s.V 0xF) := by
  unfold op_DXYN_row
  dsimp only
  by_cases hb : s.memory (s.I + row) % 2 = 1
  · obtain ⟨hD, hV1, hV0⟩ := op_DXYN_cols_odd xPos yPos row _ s 8 (Nat.le_refl 8) hb
    refine ⟨fun p => ?_, fun ⟨_, h⟩ => hV1 h, fun h => hV0 (fun h' => h ⟨hb, h'⟩)⟩
    rw [hD p]
    simp only [hb, true_and]
  · rw [op_DXYN_cols_even xPos yPos row _ s 8 (Nat.le_refl 8) hb]
    refine ⟨fun p => ?_, fun ⟨h, _⟩ => absurd h hb, fun _ => rfl⟩
    simp only [hb, false_and, if_false]

/-- The pixels hit by `k + 1` rows are those hit by the first `k` and those of
row `k`, when its byte has the low bit set. -/
theorem spriteHits_succ (s : Chip8) (xPos yPos k p : Nat) :
    spriteHits s xPos yPos (k + 1) p ↔
      spriteHits s xPos yPos k p ∨
        (s.memory (s.I + k) % 2 = 1 ∧
          xPos + (yPos + k) * 64 ≤ p ∧ p < xPos + (yPos + k) * 64 + 8) := by
  constructor
  · rintro ⟨r, hr, h⟩
    by_cases e : r = k
    · subst e
      exact Or.inr h
    · exact Or.inl ⟨r, by omega, h⟩
  · rintro (⟨r, hr, h⟩ | h)
    · exact ⟨r, by omega, h⟩
    · exact ⟨k, by omega, h⟩

/-- Two sprite rows never share a pixel: a pixel of row `k` is in no earlier
row. -/
theorem spriteHits_disjoint (s : Chip8) (xPos yPos k p : Nat)
    (h1 : xPos + (yPos + k) * 64 ≤ p) : ¬ spriteHits s xPos yPos k p := by
  rintro ⟨r, hr, -, -, h2⟩
  omega

/-- The row loop, after `k` rows: exactly the pixels of `spriteHits` are
toggled, and `VF` is raised if one of them was on. -/
theorem op_DXYN_rows (xPos yPos : Nat) (s : Chip8) (k : Nat) :
    (∀ p, spriteHits s xPos yPos k p →
      ((List.range k).foldl (op_DXYN_row xPos yPos) s).display p
        = s.display p ^^^ 0xFFFFFFFF) ∧
    (∀ p, ¬ spriteHits s xPos yPos k p →
      ((List.range k).foldl (op_DXYN_row xPos yPos) s).display p = s.display p) ∧
    ((∃ p, spriteHits s xPos yPos k p ∧ s.display p = 0xFFFFFFFF) →
      ((List.range k).foldl (op_DXYN_row xPos yPos) s).V 0xF = 1) ∧
    (¬ (∃ p, spriteHits s xPos yPos k p ∧ s.display p = 0xFFFFFFFF) →
      ((List.range k).foldl (op_DXYN_row xPos yPos) s).V 0xF = s.V 0xF) := by
  induction k with
  | zero =>
    have h0 : ∀ p, ¬ spriteHits s xPos yPos 0 p := fun p ⟨r, hr, _⟩ => by omega
    exact ⟨fun p h => absurd h (h0 p), fun p _ => rfl, fun ⟨p, h, _⟩ => absurd h (h0 p),
      fun _ => rfl⟩
  | succ k ih =>
    obtain ⟨hT, hN, hV1, hV0⟩ := ih
    have hmem : ((List.range k).foldl (op_DXYN_row xPos yPos) s).memory = s.memory :=
      foldl_keeps (fun s => s.memory) _ (fun t r => (op_DXYN_row_frame _ _ t r).1) _ _
    have hidx : ((List.range k).foldl (op_DXYN_row xPos yPos) s).I = s.I :=
      foldl_keeps (fun s => s.I) _ (fun t r => (op_DXYN_row_frame _ _ t r).2.1) _ _
    obtain ⟨rD, rV1, rV0⟩ :=
      op_DXYN_row_spec xPos yPos ((List.range k).foldl (op_DXYN_row xPos yPos) s) k
    rw [hmem, hidx] at rD rV1 rV0
    rw [List.range_succ, List.foldl_append]
    simp only [List.foldl_cons, List.foldl_nil]
    refine ⟨fun p hp => ?_, fun p hp => ?_, fun ⟨p, hp, hon⟩ => ?_, fun hno => ?_⟩
    · rw [rD p]
      rcases (spriteHits_succ s xPos yPos k p).mp hp with h | h
      · have : ¬ (s.memory (s.I + k) % 2 = 1 ∧
            xPos + (yPos + k) * 64 ≤ p ∧ p < xPos + (yPos + k) * 64 + 8) :=
          fun h' => spriteHits_disjoint s xPos yPos k p h'.2.1 h
        rw [if_neg this]
        exact hT p h
      · rw [if_pos h, hN p (spriteHits_disjoint s xPos yPos k p h.2.1)]
    · rw [rD p]
      have h1 : ¬ spriteHits s xPos yPos k p :=
        fun h => hp ((spriteHits_succ s xPos yPos k p).mpr (Or.inl h))
      have h2 : ¬ (s.memory (s.I + k) % 2 = 1 ∧
          xPos + (yPos + k) * 64 ≤ p ∧ p < xPos + (yPos + k) * 64 + 8) :=
        fun h => hp ((spriteHits_succ s xPos yPos k p).mpr (Or.inr h))
      rw [if_neg h2]
      exact hN p h1
    · by_cases hrow : s.memory (s.I + k) % 2 = 1 ∧
          ∃ q, xPos + (yPos + k) * 64 ≤ q ∧ q < xPos + (yPos + k) * 64 + 8 ∧
            ((List.range k).foldl (op_DXYN_row xPos yPos) s).display q = 0xFFFFFFFF
      · exact rV1 hrow
      · rw [rV0 hrow]
        rcases (spriteHits_succ s xPos yPos k p).mp hp with h | h
        · exact hV1 ⟨p, h, hon⟩
        · refine absurd ⟨h.1, p, h.2.1, h.2.2, ?_⟩ hrow
          rw [hN p (spriteHits_disjoint s xPos yPos k p h.2.1)]
          exact hon
    · have hrow : ¬ (s.memory (s.I + k) % 2 = 1 ∧
          ∃ q, xPos + (yPos + k) * 64 ≤ q ∧ q < xPos + (yPos + k) * 64 + 8 ∧
            ((List.range k).foldl (op_DXYN_row xPos yPos) s).display q = 0xFFFFFFFF) := by
        rintro ⟨hb, q, q1, q2, q3⟩
        rw [hN q (spriteHits_disjoint s xPos yPos k q q1)] at q3
        exact hno ⟨q, (spriteHits_succ s xPos yPos k q).mpr (Or.inr ⟨hb, q1, q2⟩), q3⟩
      rw [rV0 hrow]
      exact hV0 (fun ⟨p, hp, hon⟩ =>
        hno ⟨p, (spriteHits_succ s xPos yPos k p).mpr (Or.inl hp), hon⟩)

/-- The display after `op_DXYN`: the pixels of `spriteHits` are toggled, all
others are unchanged. -/
theorem op_DXYN_display (s : Chip8) (p : Nat) :
    (spriteHits s (s.V (getX s)) (s.V (getY s)) (getN s) p →
      (op_DXYN s).display p = s.display p ^^^ 0xFFFFFFFF) ∧
    (¬ spriteHits s (s.V (getX s)) (s.V (getY s)) (getN s) p →
      (op_DXYN s).display p = s.display p) := by
  obtain ⟨hT, hN, -, -⟩ := op_DXYN_rows (s.V (getX s)) (s.V (getY s))
    { s with V := write s.V 0xF 0 } (getN s)
  exact ⟨fun h => hT p h, fun h => hN p h⟩

/-- `VF` after `op_DXYN`: 1 if a toggled pixel was on, 0 otherwise. -/
theorem op_DXYN_flag (s : Chip8) :
    ((∃ p, spriteHits s (s.V (getX s)) (s.V (getY s)) (getN s) p ∧
        s.display p = 0xFFFFFFFF) → (op_DXYN s).V 0xF = 1) ∧
    (¬ (∃ p, spriteHits s (s.V (getX s)) (s.V (getY s)) (getN s) p ∧
        s.display p = 0xFFFFFFFF) → (op_DXYN s).V 0xF = 0) := by
  obtain ⟨-, -, hV1, hV0⟩ := op_DXYN_rows (s.V (getX s)) (s.V (getY s))
    { s with V := write s.V 0xF 0 } (getN s)
  refine ⟨fun h => hV1 h, fun h => ?_⟩
  have := hV0 h
  rw [show (op_DXYN s).V 0xF = _ from this]
  show write s.V 0xF 0 0xF = 0
  exact write_same _ _ _

/-- One cycle of `DRW Vx, Vy, n`: what it keeps, which pixels it toggles and
what it leaves in `VF`. -/
theorem draw_cycle (s : Chip8) (x y n : Nat) (hx : x < 16) (hy : y < 16) (hn : n < 16)
    (h0 : s.memory s.pc = 0xD0 + x) (h1 : s.memory (s.pc + 1) = y * 16 + n) :
    ∃ s', emulateCycle s = some s' ∧ s'.memory = s.memory ∧ s'.I = s.I ∧
      s'.pc = (s.pc + 2) % 65536 ∧ (∀ i, i ≠ 0xF → s'.V i = s.V i) ∧
      (∀ p, spriteHits s (s.V x) (s.V y) n p → s'.display p = s.display p ^^^ 0xFFFFFFFF) ∧
      (∀ p, ¬ spriteHits s (s.V x) (s.V y) n p → s'.display p = s.display p) ∧
      ((∃ p, spriteHits s (s.V x) (s.V y) n p ∧ s.display p = 0xFFFFFFFF) → s'.V 0xF = 1) ∧
      (¬ (∃ p, spriteHits s (s.V x) (s.V y) n p ∧ s.display p = 0xFFFFFFFF) →
        s'.V 0xF = 0) := by
  have hf := fetch_bytes s _ _ h0 h1 (by omega) (by omega)
  have hd : decode ((0xD0 + x) * 256 + (y * 16 + n)) = some op_DXYN := by
    have e : ((0xD0 + x) * 256 + (y * 16 + n)) / 4096 % 16 = 0xD := by omega
    simp only [decode, e]
  refine ⟨_, emulateCycle_of_decode s _ op_DXYN hf hd, ?_⟩
  obtain ⟨hV, hM, hI, hP, -, -, -, hD, -⟩ :=
    updateTimers_frame (op_DXYN (afterFetch s ((0xD0 + x) * 256 + (y * 16 + n))))
  obtain ⟨fM, fI, fP, fV⟩ := op_DXYN_frame (afterFetch s ((0xD0 + x) * 256 + (y * 16 + n)))
  have gx : getX (afterFetch s ((0xD0 + x) * 256 + (y * 16 + n))) = x := by
    rw [getX_afterFetch]; omega
  have gy : getY (afterFetch s ((0xD0 + x) * 256 + (y * 16 + n))) = y := by
    rw [getY_afterFetch]; omega
  have gn : getN (afterFetch s ((0xD0 + x) * 256 + (y * 16 + n))) = n := by
    rw [getN_afterFetch]; omega
  have hdisp := op_DXYN_display (afterFetch s ((0xD0 + x) * 256 + (y * 16 + n)))
  have hflag := op_DXYN_flag (afterFetch s ((0xD0 + x) * 256 + (y * 16 + n)))
  rw [gx, gy, gn] at hdisp hflag
  rw [hV, hM, hI, hP, hD, fM, fI, fP]
  exact ⟨rfl, rfl, rfl, fV, fun p => (hdisp p).1, fun p => (hdisp p).2, hflag.1, hflag.2⟩

/-- A pixel hit by a sprite drawn inside the grid is a pixel of the grid. -/
theorem spriteHits_lt (s : Chip8) (xPos yPos n p : Nat) (hvx : xPos + 7 ≤ 63)
    (hvy : yPos + n - 1 ≤ 31) (h : spriteHits s xPos yPos n p) : p < 2048 := by
  obtain ⟨r, hr, -, -, h2⟩ := h
  omega

/-! ## C13: the collision flag -/

/-- C13. For a sprite inside the grid and memory (`Vx + 7 <= 63`,
`Vy + n - 1 <= 31`, `I + n <= 4096`) on a display whose pixels are all 0 or
`0xFFFFFFFF`, after a cycle that fetches `DRW Vx, Vy, n` (`0xDXYN`): `VF = 1`
if and only if some pixel of the grid was on (`0xFFFFFFFF`) before the draw
and is off (0) after it; `VF` is 1 or 0; and a draw onto an all-off display
leaves `VF = 0`. -/
theorem C13_collision_flag (s : Chip8) (x y n : Nat) (hx : x < 16) (hy : y < 16) (hn : n < 16)
    (_hdisp : ∀ p < 2048, s.display p = 0 ∨ s.display p = 0xFFFFFFFF)
    (hvx : s.V x + 7 ≤ 63) (hvy : s.V y + n - 1 ≤ 31) (_hI : s.I + n ≤ 4096)
    (_hpc : s.pc ≤ 4094) (h0 : s.memory s.pc = 0xD0 + x)
    (h1 : s.memory (s.pc + 1) = y * 16 + n) :
    ∃ s', emulateCycle s = some s' ∧
      (s'.V 0xF = 1 ↔ ∃ p < 2048, s.display p = 0xFFFFFFFF ∧ s'.display p = 0) ∧
      (s'.V 0xF = 1 ∨ s'.V 0xF = 0) ∧
      ((∀ p < 2048, s.display p = 0) → s'.V 0xF = 0) := by
  obtain ⟨s', hc, -, -, -, -, hT, hN, hV1, hV0⟩ := draw_cycle s x y n hx hy hn h0 h1
  refine ⟨s', hc, ⟨fun hv => ?_, fun ⟨p, _, hon, hoff⟩ => ?_⟩, ?_, fun hall => ?_⟩
  · by_cases hex : ∃ p, spriteHits s (s.V x) (s.V y) n p ∧ s.display p = 0xFFFFFFFF
    · obtain ⟨p, hp, hon⟩ := hex
      refine ⟨p, spriteHits_lt s _ _ n p hvx hvy hp, hon, ?_⟩
      rw [hT p hp, hon]
      exact Nat.xor_self _
    · rw [hV0 hex] at hv
      exact absurd hv (by decide)
  · refine hV1 ⟨p, ?_, hon⟩
    by_contra hnot
    rw [hN p hnot, hon] at hoff
    exact absurd hoff (by decide)
  · by_cases hex : ∃ p, spriteHits s (s.V x) (s.V y) n p ∧ s.display p = 0xFFFFFFFF
    · exact Or.inl (hV1 hex)
    · exact Or.inr (hV0 hex)
  · refine hV0 (fun ⟨p, hp, hon⟩ => ?_)
    rw [hall p (spriteHits_lt s _ _ n p hvx hvy hp)] at hon
    exact absurd hon (by decide)

/-- C13, on the fresh machine running `A2 00 D0 05`: the draw of the second
cycle leaves `VF = 0`. -/
theorem C13_collision_flag_witness :
    ∃ s2, emulateCycles 2 (loadROM (Chip8_Chip8 (fun _ => 0)) (some romDrawSelf)) = some s2 ∧
      s2.V 0xF = 0 := by
  obtain ⟨s1, h1⟩ : ∃ s1,
      emulateCycle (loadROM (Chip8_Chip8 (fun _ => 0)) (some romDrawSelf)) = some s1 :=
    Option.isSome_iff_exists.mp (by decide)
  have hs1 : ∀ t ∈ emulateCycle (loadROM (Chip8_Chip8 (fun _ => 0)) (some romDrawSelf)),
      (∀ p < 2048, t.display p = 0) ∧ t.V 0 + 7 ≤ 63 ∧ t.V 0 + 5 - 1 ≤ 31 ∧ t.I + 5 ≤ 4096 ∧
        t.pc ≤ 4094 ∧ t.memory t.pc = 0xD0 + 0 ∧ t.memory (t.pc + 1) = 0 * 16 + 5 := by
    decide!
  obtain ⟨hoff, a, b, c, d, e, f⟩ := hs1 s1 h1
  obtain ⟨s2, h2, -, -, hz⟩ :=
    C13_collision_flag s1 0 0 5 (by decide) (by decide) (by decide)
      (fun p hp => Or.inl (hoff p hp)) a b c d e f
  refine ⟨s2, ?_, hz hoff⟩
  show (emulateCycle _).bind (fun t => (emulateCycle t).bind (emulateCycles 0)) = some s2
  rw [h1, Option.some_bind, h2]
  rfl

/-! ## C19: drawing twice -/

/-- C19. With `x` and `y` other than `0xF` and the sprite inside the grid and
memory, two successive cycles that fetch the same `DRW Vx, Vy, n` (at `pc` and
`pc + 2`) return a state whose display equals the display before the first
draw, at every index. -/
theorem C19_draw_twice_restores (s : Chip8) (x y n : Nat) (hx : x < 0xF) (hy : y < 0xF)
    (hn : n < 16) (_hvx : s.V x + 7 ≤ 63) (_hvy : s.V y + n - 1 ≤ 31) (_hI : s.I + n ≤ 4096)
    (hpc : s.pc ≤ 4092)
    (h0 : s.memory s.pc = 0xD0 + x) (h1 : s.memory (s.pc + 1) = y * 16 + n)
    (h2 : s.memory (s.pc + 2) = 0xD0 + x) (h3 : s.memory (s.pc + 3) = y * 16 + n) :
    ∃ s', emulateCycles 2 s = some s' ∧ ∀ p, s'.display p = s.display p := by
  obtain ⟨s1, c1, m1, i1, p1, v1, T1, N1, -, -⟩ :=
    draw_cycle s x y n (by omega) (by omega) hn h0 h1
  have hp1 : s1.pc = s.pc + 2 := by rw [p1]; omega
  obtain ⟨s2, c2, -, -, -, -, T2, N2, -, -⟩ :=
    draw_cycle s1 x y n (by omega) (by omega) hn (by rw [hp1, m1]; exact h2)
      (by rw [hp1, m1]; exact h3)
  have hsame : ∀ p, spriteHits s1 (s1.V x) (s1.V y) n p ↔ spriteHits s (s.V x) (s.V y) n p := by
    intro p
    unfold spriteHits
    rw [m1, i1, v1 x (by omega), v1 y (by omega)]
  refine ⟨s2, ?_, fun p => ?_⟩
  · show (emulateCycle s).bind (fun t => (emulateCycle t).bind (emulateCycles 0)) = some s2
    rw [c1, Option.some_bind, c2]
    rfl
  · by_cases hp : spriteHits s (s.V x) (s.V y) n p
    · rw [T2 p ((hsame p).mpr hp), T1 p hp]
      exact Nat.xor_cancel_right _ _
    · rw [N2 p (fun h => hp ((hsame p).mp h)), N1 p hp]

/-- C19, on a machine that draws the byte `0x01` twice at `(0, 0)`: the first
draw turns pixel 0 on, after the second it is off again. -/
theorem C19_draw_twice_restores_witness :
    (emulateCycle machineDrawTwice).map (fun s => s.display 0) = some 0xFFFFFFFF ∧
    ∃ s', emulateCycles 2 machineDrawTwice = some s' ∧ s'.display 0 = 0 := by
  refine ⟨by decide, ?_⟩
  obtain ⟨s', h, hd⟩ :=
    C19_draw_twice_restores machineDrawTwice 0 1 1 (by decide) (by decide) (by decide)
      (by decide) (by decide) (by decide) (by decide) (by decide) (by decide) (by decide)
      (by decide)
  exact ⟨s', h, by rw [hd 0]; rfl⟩
